import Mathlib

/-!
Verification of the StaleMate agent/search subsystem.

The development shallowly embeds `score_heuristics.py` and
`player_models.py`.  The board engine (`chesswar.Board`) is not part of the
verified sources; it is modelled abstractly from the contract in spec §6
(an ordered legal-move list per player, a pure `forecast_move`, terminal
predicates, opponent lookup, board geometry).  Game states are represented
as well-founded trees: a real game of StaleMate always terminates because
every move blocks a cell, so every concrete board unfolds to a
finite-depth tree whose dead ends have no legal moves.

Python floats are modelled by rationals; the `float("inf")` /
`float("-inf")` accumulators of the searches live in
`WithBot (WithTop ℚ)` with `⊥` standing for `-inf` and `⊤` for `+inf`.
The `SearchTimeout` exception is modelled with `Except Unit`; the
`time_left` callback is a pure stream `Nat → ℚ` consumed one tick per
call, with the tick counter threaded through the search.
-/

namespace StaleMate

/-- Moves are coordinate pairs; `(-1, -1)` is the no-move sentinel. -/
abbrev Move := Int × Int

/-- The no-move sentinel returned when no legal move is available. -/
def sentinel : Move := (-1, -1)

/-- The two player identities registered with a board. -/
inductive Player where
  | one
  | two
deriving DecidableEq

/-- Modelled from the spec: `get_opponent` of the Board contract (§6) maps
each of the two competitors to the other. -/
def Player.other : Player → Player
  | .one => .two
  | .two => .one

/-- Per-state data of a board that does not involve successor states:
active player, terminal predicates, and the geometry consumed by
`center_score`. -/
structure BoardInfo where
  active : Player
  loser : Player → Bool
  winner : Player → Bool
  width : ℚ
  height : ℚ
  loc : Player → Int × Int

/-- Modelled from the spec: `chesswar.Board` is not under `src/`; this is
the Board contract of spec §6.  A `mk` node carries the ordered legal-move
lists and the pure `forecast_move` successor function; a `stuck` node is a
dead end with no legal moves for either player (forecasting stops there,
which is where a real game has ended). -/
inductive Board where
  | stuck (info : BoardInfo)
  | mk (info : BoardInfo) (lmof : Player → List Move) (forecastFn : Move → Board)

/-- Per-state data of a board. -/
def Board.info : Board → BoardInfo
  | .stuck i => i
  | .mk i _ _ => i

/-- The player whose turn it is at this state. -/
def Board.active (g : Board) : Player := g.info.active

/-- `Board.is_loser` of the contract. -/
def Board.isLoser (g : Board) (p : Player) : Bool := g.info.loser p

/-- `Board.is_winner` of the contract. -/
def Board.isWinner (g : Board) (p : Player) : Bool := g.info.winner p

/-- `Board.get_legal_moves(player)`: the ordered legal-move list of the
given player; empty at a dead end. -/
def Board.legalMovesOf : Board → Player → List Move
  | .stuck _, _ => []
  | .mk _ lm _, p => lm p

/-- `Board.get_legal_moves()` with no argument: the active player's legal
moves. -/
def Board.legalMoves (g : Board) : List Move := g.legalMovesOf g.active

/-- `Board.forecast_move(move)`: the successor state.  At a dead end the
game is over and the state is returned unchanged (the algorithms never
forecast from a move-less state). -/
def Board.forecast : Board → Move → Board
  | .stuck i, _ => .stuck i
  | .mk _ _ f, m => f m

/-- `Board.get_player_location(player)` as a `(row, col)` pair. -/
def Board.location (g : Board) (p : Player) : Int × Int := g.info.loc p

/-- A board alternates turns: every forecasted successor hands the move to
the opponent of the current active player (how `chesswar.Board` behaves
per the spec's state machine of alternating maximizing/minimizing
layers). -/
def Board.flips : Board → Prop
  | .stuck _ => True
  | .mk i _ f => (∀ m, (f m).active = i.active.other) ∧ ∀ m, (f m).flips

/-! ### Heuristic layer (`score_heuristics.py`)

Each heuristic takes the board and the player identity and returns a
rational score.  The `weight` keyword argument is modelled by an
`Option ℚ`: `none` covers both an absent key and an explicit Python
`None`, which the code treats alike. -/

/-- `null_score`: uninformative baseline, 0 on every non-terminal state. -/
def null_score (g : Board) (p : Player) : ℚ :=
  if g.isLoser p then -1000000 else
  if g.isWinner p then 1000000 else
  0

/-- `open_move_score`: the number of moves open for the player. -/
def open_move_score (g : Board) (p : Player) : ℚ :=
  if g.isLoser p then -1000000 else
  if g.isWinner p then 1000000 else
  ((g.legalMovesOf p).length : ℚ)

/-- `improved_om_score`: difference between the two players' numbers of
available moves. -/
def improved_om_score (g : Board) (p : Player) : ℚ :=
  if g.isLoser p then -1000000 else
  if g.isWinner p then 1000000 else
  ((g.legalMovesOf p).length : ℚ) - ((g.legalMovesOf p.other).length : ℚ)

/-- `center_score`: squared distance from the player's cell to the board
center. -/
def center_score (g : Board) (p : Player) : ℚ :=
  if g.isLoser p then -1000000 else
  if g.isWinner p then 1000000 else
  (g.info.height / 2 - (g.location p).1) ^ 2 +
    (g.info.width / 2 - (g.location p).2) ^ 2

/-- `weighted_om_score`: own mobility minus `weight` times the opponent's
mobility, default weight 2. -/
def weighted_om_score (wt : Option ℚ) (g : Board) (p : Player) : ℚ :=
  let weight := wt.getD 2
  if g.isLoser p then -1000000 else
  if g.isWinner p then 1000000 else
  ((g.legalMovesOf p).length : ℚ) - weight * ((g.legalMovesOf p.other).length : ℚ)

/-- `farsighted_score`: two-ply lookahead mobility, default weight 1.
Note that the inner loop of the source applies each opponent reply
`second_move` to the ORIGINAL board `game`, not to the successor
`next_game` the reply was enumerated from
(`next_next_game = game.forecast_move(second_move)`). -/
def farsighted_score (wt : Option ℚ) (g : Board) (p : Player) : ℚ :=
  let weight := wt.getD 1
  if g.isLoser p then -1000000 else
  if g.isWinner p then 1000000 else
  let opponent := p.other
  let own_score := ((g.legalMovesOf p).map
    (fun first_move => ((g.forecast first_move).legalMovesOf p).length)).sum
  let opp_score := ((g.legalMovesOf p).map
    (fun first_move =>
      (((g.forecast first_move).legalMovesOf opponent).map
        (fun second_move => ((g.forecast second_move).legalMovesOf opponent).length)).sum)).sum
  (own_score : ℚ) - weight * (opp_score : ℚ)

/-- Modelled from the spec: the two-ply lookahead formula of spec §4.4 as
claim C4 states it, with each opponent reply applied to the board
RESULTING from the first move (`next_game`), not to the original board.
Kept separate from `farsighted_score` (the source), for comparison. -/
def farsighted_score_spec (wt : Option ℚ) (g : Board) (p : Player) : ℚ :=
  let weight := wt.getD 1
  if g.isLoser p then -1000000 else
  if g.isWinner p then 1000000 else
  let opponent := p.other
  let own_score := ((g.legalMovesOf p).map
    (fun first_move => ((g.forecast first_move).legalMovesOf p).length)).sum
  let opp_score := ((g.legalMovesOf p).map
    (fun first_move =>
      (((g.forecast first_move).legalMovesOf opponent).map
        (fun second_move =>
          (((g.forecast first_move).forecast second_move).legalMovesOf opponent).length)).sum)).sum
  (own_score : ℚ) - weight * (opp_score : ℚ)

/-! ### Simple players (`player_models.py`) -/

/-- `RandomPlayer.get_move`.  The call `randint(0, len - 1)` is modelled
by the drawn index `i`; `randint`'s contract keeps `i` within bounds, and
the out-of-bounds default of `getD` is never reached under it. -/
def RandomPlayer.get_move (g : Board) (i : Nat) : Move :=
  let legal_moves := g.legalMoves
  if legal_moves = [] then sentinel
  else legal_moves.getD i sentinel

/-- Strict comparison of Python tuples `(score, (row, col))` as used by
`max` in `GreedyPlayer.get_move`: lexicographic on the score, then on the
move coordinates. -/
def pairLt (a b : ℚ × Move) : Prop :=
  a.1 < b.1 ∨ (a.1 = b.1 ∧ (a.2.1 < b.2.1 ∨ (a.2.1 = b.2.1 ∧ a.2.2 < b.2.2)))

instance (a b : ℚ × Move) : Decidable (pairLt a b) := by
  unfold pairLt
  infer_instance

/-- Python's `max` over a nonempty list: scan left to right, replacing the
current maximum only when a later element is strictly greater. -/
def pyMax (cur : ℚ × Move) : List (ℚ × Move) → ℚ × Move
  | [] => cur
  | x :: xs => pyMax (if pairLt cur x then x else cur) xs

/-- `GreedyPlayer.get_move`: score every one-ply forecast with the
injected heuristic `sc` from the agent `p`'s perspective and take the
Python `max` of the `(score, move)` pairs. -/
def GreedyPlayer.get_move (sc : Board → Player → ℚ) (p : Player) (g : Board) : Move :=
  match (g.legalMoves).map (fun m => (sc (g.forecast m) p, m)) with
  | [] => sentinel
  | x :: xs => (pyMax x xs).2

/-- `HumanPlayer.get_move`.  The input loop re-prompts until the user
supplies an in-range index; `i` is the index finally accepted (so the
loop's exit condition `0 <= index < len(legal_moves)` holds for it). -/
def HumanPlayer.get_move (g : Board) (i : Nat) : Move :=
  let legal_moves := g.legalMoves
  if legal_moves = [] then sentinel
  else legal_moves.getD i sentinel

/-! ### Search values

Python float scores extended with `float("-inf")` (`⊥`) and
`float("inf")` (`⊤`), the initial accumulator values of the searches. -/

/-- Scores as they flow through the searches. -/
abbrev V := WithBot (WithTop ℚ)

/-- A finite heuristic value as a search score. -/
def toV (q : ℚ) : V := ((q : WithTop ℚ) : V)

/-! ### Minimax search with the clock abstracted away

`MinimaxPlayer.value` renders `_min_value` / `_max_value` (selected by
`isMax`) for a run in which the `time_left() < TIMER_THRESHOLD` test never
fires; `valueT` below keeps the clock.  `_terminal_state` is the test
`depth == 0 or not bool(game.get_legal_moves())`; at a `stuck` dead end
the legal-move list is empty, so the test holds and the heuristic is
returned. -/

/-- `MinimaxPlayer._min_value` (`isMax = false`) and
`MinimaxPlayer._max_value` (`isMax = true`), timeout check never firing:
at a terminal state return `self.score(game, self)` (here `sc game`, the
heuristic fixed to the root player); otherwise fold `min` (resp. `max`)
of the opposite-layer values of the forecasted successors at `depth - 1`
over the active player's legal moves, starting from `float("inf")`
(resp. `float("-inf")`). -/
def MinimaxPlayer.value (sc : Board → ℚ) : Bool → Board → Int → V
  | _, .stuck i, _ => toV (sc (.stuck i))
  | isMax, .mk i lm f, d =>
    if d = 0 ∨ lm i.active = [] then toV (sc (.mk i lm f))
    else (lm i.active).foldl
      (fun score m =>
        if isMax then max score (MinimaxPlayer.value sc false (f m) (d - 1))
        else min score (MinimaxPlayer.value sc true (f m) (d - 1)))
      (if isMax then ⊥ else ⊤)

/-- `MinimaxPlayer.minimax`, timeout check never firing: start from
`best_score = float("-inf")`, `best_move = None`, and replace the pair
whenever a root move's `_min_value` at `depth - 1` is strictly greater
than `best_score`; return `best_move` (which stays `None` when there are
no legal moves). -/
def MinimaxPlayer.minimax (sc : Board → ℚ) (g : Board) (d : Int) : Option Move :=
  ((g.legalMoves).foldl
    (fun best m =>
      let min_value := MinimaxPlayer.value sc false (g.forecast m) (d - 1)
      if best.1 < min_value then (min_value, some m) else best)
    ((⊥ : V), (none : Option Move))).2

/-! ### Alpha-beta search with the clock abstracted away -/

/-- The move loop of `AlphaBetaPlayer._max_value`: `f m α` is the
`_min_value` of the successor of `m` at the current `alpha` (`beta` is
fixed inside one maximizing layer); break as soon as the running score
reaches `beta`, otherwise raise `alpha` to the running score. -/
def AlphaBetaPlayer.maxLoop (f : Move → V → V) (β : V) : List Move → V → V → V
  | [], score, _ => score
  | m :: ms, score, α =>
      let s := max score (f m α)
      if β ≤ s then s else AlphaBetaPlayer.maxLoop f β ms s (max α s)

/-- The move loop of `AlphaBetaPlayer._min_value`: symmetric to
`maxLoop`; `alpha` is fixed inside one minimizing layer, break as soon as
the running score drops to `alpha`, otherwise lower `beta`. -/
def AlphaBetaPlayer.minLoop (f : Move → V → V) (α : V) : List Move → V → V → V
  | [], score, _ => score
  | m :: ms, score, β =>
      let s := min score (f m β)
      if s ≤ α then s else AlphaBetaPlayer.minLoop f α ms s (min β s)

/-- `AlphaBetaPlayer._min_value` (`isMax = false`) and
`AlphaBetaPlayer._max_value` (`isMax = true`), timeout check never
firing.  The terminal test is the active player's, but the maximizing
layer iterates `game.get_legal_moves(self)` — the AGENT `p`'s moves —
exactly as the source does, while the minimizing layer iterates the
active player's moves. -/
def AlphaBetaPlayer.value (sc : Board → ℚ) (p : Player) :
    Bool → Board → Int → V → V → V
  | _, .stuck i, _, _, _ => toV (sc (.stuck i))
  | isMax, .mk i lm f, d, α, β =>
    if d = 0 ∨ lm i.active = [] then toV (sc (.mk i lm f))
    else if isMax then
      AlphaBetaPlayer.maxLoop
        (fun m a => AlphaBetaPlayer.value sc p false (f m) (d - 1) a β)
        β (lm p) ⊥ α
    else
      AlphaBetaPlayer.minLoop
        (fun m b => AlphaBetaPlayer.value sc p true (f m) (d - 1) α b)
        α (lm i.active) ⊤ β

/-- The root move loop of `AlphaBetaPlayer.alphabeta`: like minimax's
root loop but additionally breaking when `best_score >= beta` and raising
`alpha` to `best_score` after each iteration. -/
def AlphaBetaPlayer.rootLoop (f : Move → V → V) (β : V) :
    List Move → V → Option Move → V → V × Option Move
  | [], best_score, best_move, _ => (best_score, best_move)
  | m :: ms, best_score, best_move, α =>
      let min_value := f m α
      let s := if best_score < min_value then min_value else best_score
      let b := if best_score < min_value then some m else best_move
      if β ≤ s then (s, b) else AlphaBetaPlayer.rootLoop f β ms s b (max α s)

/-- `AlphaBetaPlayer.alphabeta`, timeout check never firing. -/
def AlphaBetaPlayer.alphabeta (sc : Board → ℚ) (p : Player) (g : Board)
    (d : Int) (α β : V) : Option Move :=
  (AlphaBetaPlayer.rootLoop
    (fun m a => AlphaBetaPlayer.value sc p false (g.forecast m) (d - 1) a β)
    β g.legalMoves ⊥ none α).2

/-! ### The searches with the clock kept

`raise SearchTimeout()` is `.error ()`; the `time_left` callback is the
stream `clk`, read once per check at the tick counter threaded through
the run, and `TIMER_THRESHOLD` is `θ`.  Each of `minimax`, `alphabeta`,
`_terminal_state`, `_min_value`, `_max_value` opens with
`if self.time_left() < self.TIMER_THRESHOLD: raise SearchTimeout()`; the
value functions therefore perform two consecutive checks (their own and
`_terminal_state`'s) before any other work. -/

/-- The move loop of the timed `_min_value`/`_max_value`, threading the
tick counter; a timeout inside a successor search propagates out. -/
def MinimaxPlayer.valueLoopT (f : Move → Nat → Except Unit (V × Nat))
    (op : V → V → V) : List Move → V → Nat → Except Unit (V × Nat)
  | [], score, k => .ok (score, k)
  | m :: ms, score, k => do
      let (v, k1) ← f m k
      MinimaxPlayer.valueLoopT f op ms (op score v) k1

/-- Timed `MinimaxPlayer._min_value` (`isMax = false`) /
`_max_value` (`isMax = true`): its own timeout check, then
`_terminal_state` (a second check followed by the depth-0 / no-moves
test), then the move loop. -/
def MinimaxPlayer.valueT (clk : Nat → ℚ) (θ : ℚ) (sc : Board → ℚ) :
    Bool → Board → Int → Nat → Except Unit (V × Nat)
  | _, .stuck i, _, k =>
    if clk k < θ then .error () else
    if clk (k + 1) < θ then .error () else
    .ok (toV (sc (.stuck i)), k + 2)
  | isMax, .mk i lm f, d, k =>
    if clk k < θ then .error () else
    if clk (k + 1) < θ then .error () else
    if d = 0 ∨ lm i.active = [] then .ok (toV (sc (.mk i lm f)), k + 2)
    else MinimaxPlayer.valueLoopT
      (fun m k1 => MinimaxPlayer.valueT clk θ sc (!isMax) (f m) (d - 1) k1)
      (if isMax then max else min) (lm i.active)
      (if isMax then ⊥ else ⊤) (k + 2)

/-- The root move loop of the timed `MinimaxPlayer.minimax`. -/
def MinimaxPlayer.rootLoopT (f : Move → Nat → Except Unit (V × Nat)) :
    List Move → V → Option Move → Nat → Except Unit ((V × Option Move) × Nat)
  | [], best_score, best_move, k => .ok ((best_score, best_move), k)
  | m :: ms, best_score, best_move, k => do
      let (min_value, k1) ← f m k
      if best_score < min_value then
        MinimaxPlayer.rootLoopT f ms min_value (some m) k1
      else
        MinimaxPlayer.rootLoopT f ms best_score best_move k1

/-- Timed `MinimaxPlayer.minimax`: one timeout check, then the root loop
over the active player's legal moves; returns `best_move`, which is still
`None` when the loop had nothing to do. -/
def MinimaxPlayer.minimaxT (clk : Nat → ℚ) (θ : ℚ) (sc : Board → ℚ)
    (g : Board) (d : Int) (k : Nat) : Except Unit (Option Move × Nat) :=
  if clk k < θ then .error () else do
    let (best, k1) ← MinimaxPlayer.rootLoopT
      (fun m k1 => MinimaxPlayer.valueT clk θ sc false (g.forecast m) (d - 1) k1)
      g.legalMoves ⊥ none (k + 1)
    pure (best.2, k1)

/-- `MinimaxPlayer.get_move`: run `minimax(game, self.search_depth)` in a
`try` block and return its result; a `SearchTimeout` is caught and the
initial `best_move = (-1, -1)` is returned instead. -/
def MinimaxPlayer.get_move (clk : Nat → ℚ) (θ : ℚ) (sc : Board → ℚ)
    (g : Board) (d : Int) : Option Move :=
  match MinimaxPlayer.minimaxT clk θ sc g d 0 with
  | .error _ => some sentinel
  | .ok (m, _) => m

/-- The move loop of the timed `AlphaBetaPlayer._max_value`. -/
def AlphaBetaPlayer.maxLoopT (f : Move → V → Nat → Except Unit (V × Nat))
    (β : V) : List Move → V → V → Nat → Except Unit (V × Nat)
  | [], score, _, k => .ok (score, k)
  | m :: ms, score, α, k => do
      let (v, k1) ← f m α k
      let s := max score v
      if β ≤ s then .ok (s, k1)
      else AlphaBetaPlayer.maxLoopT f β ms s (max α s) k1

/-- The move loop of the timed `AlphaBetaPlayer._min_value`. -/
def AlphaBetaPlayer.minLoopT (f : Move → V → Nat → Except Unit (V × Nat))
    (α : V) : List Move → V → V → Nat → Except Unit (V × Nat)
  | [], score, _, k => .ok (score, k)
  | m :: ms, score, β, k => do
      let (v, k1) ← f m β k
      let s := min score v
      if s ≤ α then .ok (s, k1)
      else AlphaBetaPlayer.minLoopT f α ms s (min β s) k1

/-- Timed `AlphaBetaPlayer._min_value` / `_max_value`; as in the source,
the maximizing layer iterates `game.get_legal_moves(self)` (the agent
`p`'s list) while the terminal test and the minimizing layer use the
active player's list. -/
def AlphaBetaPlayer.valueT (clk : Nat → ℚ) (θ : ℚ) (sc : Board → ℚ) (p : Player) :
    Bool → Board → Int → V → V → Nat → Except Unit (V × Nat)
  | _, .stuck i, _, _, _, k =>
    if clk k < θ then .error () else
    if clk (k + 1) < θ then .error () else
    .ok (toV (sc (.stuck i)), k + 2)
  | isMax, .mk i lm f, d, α, β, k =>
    if clk k < θ then .error () else
    if clk (k + 1) < θ then .error () else
    if d = 0 ∨ lm i.active = [] then .ok (toV (sc (.mk i lm f)), k + 2)
    else if isMax then
      AlphaBetaPlayer.maxLoopT
        (fun m a k1 => AlphaBetaPlayer.valueT clk θ sc p false (f m) (d - 1) a β k1)
        β (lm p) ⊥ α (k + 2)
    else
      AlphaBetaPlayer.minLoopT
        (fun m b k1 => AlphaBetaPlayer.valueT clk θ sc p true (f m) (d - 1) α b k1)
        α (lm i.active) ⊤ β (k + 2)

/-- The root move loop of the timed `AlphaBetaPlayer.alphabeta`. -/
def AlphaBetaPlayer.rootLoopT (f : Move → V → Nat → Except Unit (V × Nat))
    (β : V) : List Move → V → Option Move → V → Nat →
    Except Unit ((V × Option Move) × Nat)
  | [], best_score, best_move, _, k => .ok ((best_score, best_move), k)
  | m :: ms, best_score, best_move, α, k => do
      let (min_value, k1) ← f m α k
      let s := if best_score < min_value then min_value else best_score
      let b := if best_score < min_value then some m else best_move
      if β ≤ s then .ok ((s, b), k1)
      else AlphaBetaPlayer.rootLoopT f β ms s b (max α s) k1

/-- Timed `AlphaBetaPlayer.alphabeta`. -/
def AlphaBetaPlayer.alphabetaT (clk : Nat → ℚ) (θ : ℚ) (sc : Board → ℚ)
    (p : Player) (g : Board) (d : Int) (α β : V) (k : Nat) :
    Except Unit (Option Move × Nat) :=
  if clk k < θ then .error () else do
    let (best, k1) ← AlphaBetaPlayer.rootLoopT
      (fun m a k1 => AlphaBetaPlayer.valueT clk θ sc p false (g.forecast m) (d - 1) a β k1)
      β g.legalMoves ⊥ none α (k + 1)
    pure (best.2, k1)

/-- `AlphaBetaPlayer.get_move`: `best_move = (-1, -1)`, then
`best_move = self.alphabeta(game, depth, -inf, +inf)` inside `try`; a
`SearchTimeout` leaves the sentinel in place. -/
def AlphaBetaPlayer.get_move (clk : Nat → ℚ) (θ : ℚ) (sc : Board → ℚ)
    (p : Player) (g : Board) (d : Int) : Option Move :=
  match AlphaBetaPlayer.alphabetaT clk θ sc p g d ⊥ ⊤ 0 with
  | .error _ => some sentinel
  | .ok (m, _) => m

/-! ### Fuel-indexed searches

The termination claim is settled on fuel-indexed renderings of the
searches: `fuel` bounds the depth of nested `_min_value`/`_max_value`
frames, `none` marks fuel exhaustion, and the theorem shows fuel
`search_depth` suffices because every recursive call decreases `depth`
by exactly 1 and expansion stops at `depth == 0` or at an empty
legal-move list. -/

/-- Fuel-indexed `MinimaxPlayer._min_value`/`_max_value`. -/
def MinimaxPlayer.valueF (sc : Board → ℚ) : Nat → Bool → Board → Int → Option V
  | 0, _, _, _ => none
  | fuel + 1, isMax, g, d =>
    if d = 0 ∨ g.legalMoves = [] then some (toV (sc g))
    else (g.legalMoves).foldl
      (fun s? m => do
        let s ← s?
        let v ← MinimaxPlayer.valueF sc fuel (!isMax) (g.forecast m) (d - 1)
        pure (if isMax then max s v else min s v))
      (some (if isMax then ⊥ else ⊤))

/-- Fuel-indexed `MinimaxPlayer.minimax`: the root loop, with each root
move's `_min_value` searched on the given fuel. -/
def MinimaxPlayer.minimaxF (sc : Board → ℚ) (fuel : Nat) (g : Board) (d : Int) :
    Option (V × Option Move) :=
  (g.legalMoves).foldl
    (fun acc? m => do
      let best ← acc?
      let min_value ← MinimaxPlayer.valueF sc fuel false (g.forecast m) (d - 1)
      pure (if best.1 < min_value then (min_value, some m) else best))
    (some ((⊥ : V), (none : Option Move)))

/-- Fuel-indexed move loop of `AlphaBetaPlayer._max_value`. -/
def AlphaBetaPlayer.maxLoopF (f : Move → V → Option V) (β : V) :
    List Move → V → V → Option V
  | [], score, _ => some score
  | m :: ms, score, α => do
      let v ← f m α
      let s := max score v
      if β ≤ s then some s else AlphaBetaPlayer.maxLoopF f β ms s (max α s)

/-- Fuel-indexed move loop of `AlphaBetaPlayer._min_value`. -/
def AlphaBetaPlayer.minLoopF (f : Move → V → Option V) (α : V) :
    List Move → V → V → Option V
  | [], score, _ => some score
  | m :: ms, score, β => do
      let v ← f m β
      let s := min score v
      if s ≤ α then some s else AlphaBetaPlayer.minLoopF f α ms s (min β s)

/-- Fuel-indexed `AlphaBetaPlayer._min_value`/`_max_value`. -/
def AlphaBetaPlayer.valueF (sc : Board → ℚ) (p : Player) :
    Nat → Bool → Board → Int → V → V → Option V
  | 0, _, _, _, _, _ => none
  | fuel + 1, isMax, g, d, α, β =>
    if d = 0 ∨ g.legalMoves = [] then some (toV (sc g))
    else if isMax then
      AlphaBetaPlayer.maxLoopF
        (fun m a => AlphaBetaPlayer.valueF sc p fuel false (g.forecast m) (d - 1) a β)
        β (g.legalMovesOf p) ⊥ α
    else
      AlphaBetaPlayer.minLoopF
        (fun m b => AlphaBetaPlayer.valueF sc p fuel true (g.forecast m) (d - 1) α b)
        α g.legalMoves ⊤ β

/-- Fuel-indexed root loop of `AlphaBetaPlayer.alphabeta`. -/
def AlphaBetaPlayer.rootLoopF (f : Move → V → Option V) (β : V) :
    List Move → V → Option Move → V → Option (V × Option Move)
  | [], best_score, best_move, _ => some (best_score, best_move)
  | m :: ms, best_score, best_move, α => do
      let min_value ← f m α
      let s := if best_score < min_value then min_value else best_score
      let b := if best_score < min_value then some m else best_move
      if β ≤ s then some (s, b) else AlphaBetaPlayer.rootLoopF f β ms s b (max α s)

/-- Fuel-indexed `AlphaBetaPlayer.alphabeta`. -/
def AlphaBetaPlayer.alphabetaF (sc : Board → ℚ) (p : Player) (fuel : Nat)
    (g : Board) (d : Int) (α β : V) : Option (V × Option Move) :=
  AlphaBetaPlayer.rootLoopF
    (fun m a => AlphaBetaPlayer.valueF sc p fuel false (g.forecast m) (d - 1) a β)
    β g.legalMoves ⊥ none α

/-! ### Concrete boards used as test inputs -/

/-- A non-terminal state description with player one to move. -/
def infoA : BoardInfo := ⟨.one, fun _ => false, fun _ => false, 7, 7, fun _ => (0, 0)⟩

/-- A non-terminal state description with player two to move. -/
def infoB : BoardInfo := ⟨.two, fun _ => false, fun _ => false, 7, 7, fun _ => (0, 0)⟩

/-- A state description in which player one has lost. -/
def infoL : BoardInfo := ⟨.one, fun p => p == .one, fun p => p == .two, 7, 7, fun _ => (0, 0)⟩

/-- A state description in which player one has won. -/
def infoW : BoardInfo := ⟨.one, fun p => p == .two, fun p => p == .one, 7, 7, fun _ => (0, 0)⟩

/-- A dead end with player one to move and no legal moves. -/
def dead1 : Board := .stuck infoA

/-- A dead end with player two to move and no legal moves. -/
def dead2 : Board := .stuck infoB

/-- A lost dead end for player one. -/
def deadL : Board := .stuck infoL

/-- A won dead end for player one. -/
def deadW : Board := .stuck infoW

/-- Player one to move with two legal moves `(0,0)` and `(1,1)`, both
leading to the same non-terminal dead end, so every one-ply heuristic
score ties. -/
def bGreedy : Board :=
  .mk infoA (fun p => if p = .one then [((0 : Int), (0 : Int)), (1, 1)] else [])
    (fun _ => dead2)

/-- Player one has 3 legal moves, player two has 1. -/
def b31 : Board :=
  .mk infoA
    (fun p => if p = .one then [((0 : Int), (0 : Int)), (1, 1), (2, 2)] else [(3, 3)])
    (fun _ => dead2)

/-- Successor of `g1C4` after the opponent reply `(5,5)`: the opponent
(player two) has one move here. -/
def gYC4 : Board := .mk infoA (fun p => if p = .two then [((1 : Int), (1 : Int))] else [])
  (fun _ => dead1)

/-- Successor of `gC4` after the first move `(0,0)`: player two has the
single reply `(5,5)`, and applying it HERE leaves player two one move. -/
def g1C4 : Board := .mk infoB (fun p => if p = .two then [((5 : Int), (5 : Int))] else [])
  (fun _ => gYC4)

/-- Root board for the two-ply lookahead test: player one's only move is
`(0,0)`, leading to `g1C4`; applying the opponent reply `(5,5)` to THIS
board instead (what the source does) reaches a dead end where player two
has no moves. -/
def gC4 : Board :=
  .mk infoA (fun p => if p = .one then [((0 : Int), (0 : Int))] else [])
    (fun m => if m = ((0 : Int), (0 : Int)) then g1C4 else dead2)

/-- A depth-two alternating game tree with player one to move at the
root: three root moves leading to minimizing layers with one to three
replies each. -/
def midC3 (ms : List Move) : Board :=
  .mk infoB (fun p => if p = .two then ms else [])
    (fun m => .stuck ⟨.one, fun _ => false, fun _ => false, 7, 7, fun _ => (m.1 + m.2, 0)⟩)

/-- Root of the concrete alternating game tree. -/
def topC3 : Board :=
  .mk infoA (fun p => if p = .one then [((0 : Int), (1 : Int)), (2, 3), (1, 1)] else [])
    (fun m =>
      if m = ((0 : Int), (1 : Int)) then midC3 [((4 : Int), (0 : Int)), (0, 2)]
      else if m = ((2 : Int), (3 : Int)) then midC3 [((1 : Int), (0 : Int))]
      else midC3 [((3 : Int), (3 : Int)), (2, 2), (0, 0)])

/-! ### Claim theorems -/

/-- C7: every heuristic variant, at every `weight` option, returns
exactly `-1000000` when `is_loser(player)` holds and exactly `1000000`
when `is_winner(player)` holds and `is_loser(player)` does not. -/
theorem claim_C7 (g : Board) (p : Player) (wtW wtF : Option ℚ) :
    (g.isLoser p = true →
      null_score g p = -1000000 ∧
      open_move_score g p = -1000000 ∧
      improved_om_score g p = -1000000 ∧
      center_score g p = -1000000 ∧
      weighted_om_score wtW g p = -1000000 ∧
      farsighted_score wtF g p = -1000000) ∧
    (g.isLoser p = false → g.isWinner p = true →
      null_score g p = 1000000 ∧
      open_move_score g p = 1000000 ∧
      improved_om_score g p = 1000000 ∧
      center_score g p = 1000000 ∧
      weighted_om_score wtW g p = 1000000 ∧
      farsighted_score wtF g p = 1000000) := by
  constructor
  · intro hL
    refine ⟨?_, ?_, ?_, ?_, ?_, ?_⟩ <;>
      simp [null_score, open_move_score, improved_om_score, center_score,
        weighted_om_score, farsighted_score, hL]
  · intro hL hW
    refine ⟨?_, ?_, ?_, ?_, ?_, ?_⟩ <;>
      simp [null_score, open_move_score, improved_om_score, center_score,
        weighted_om_score, farsighted_score, hL, hW]

/-- C7 witness: the conclusions of `claim_C7` at the concrete lost and
won dead ends for player one, at weight 5. -/
theorem claim_C7_witness :
    (null_score deadL .one = -1000000 ∧
      open_move_score deadL .one = -1000000 ∧
      improved_om_score deadL .one = -1000000 ∧
      center_score deadL .one = -1000000 ∧
      weighted_om_score (some 5) deadL .one = -1000000 ∧
      farsighted_score (some 5) deadL .one = -1000000) ∧
    (null_score deadW .one = 1000000 ∧
      open_move_score deadW .one = 1000000 ∧
      improved_om_score deadW .one = 1000000 ∧
      center_score deadW .one = 1000000 ∧
      weighted_om_score (some 5) deadW .one = 1000000 ∧
      farsighted_score (some 5) deadW .one = 1000000) :=
  ⟨(claim_C7 deadL .one (some 5) (some 5)).1 (by decide),
   (claim_C7 deadW .one (some 5) (some 5)).2 (by decide) (by decide)⟩

/-- C8: on every non-terminal state the mobility-differential heuristic
equals the player's legal-move count minus the opponent's; with 3 moves
against 1 it returns 2. -/
theorem claim_C8 :
    (∀ (g : Board) (p : Player), g.isLoser p = false → g.isWinner p = false →
      improved_om_score g p =
        ((g.legalMovesOf p).length : ℚ) - ((g.legalMovesOf p.other).length : ℚ)) ∧
    improved_om_score b31 .one = 2 := by
  constructor
  · intro g p hL hW
    simp [improved_om_score, hL, hW]
  · simp [improved_om_score, b31, infoA, infoB, dead2, Board.isLoser, Board.isWinner,
      Board.legalMovesOf, Board.info, Player.other]
    norm_num

/-- C8 witness: the general clause of `claim_C8` applied at the concrete
3-versus-1 board. -/
theorem claim_C8_witness :
    improved_om_score b31 .one =
      ((b31.legalMovesOf .one).length : ℚ) - ((b31.legalMovesOf Player.one.other).length : ℚ) :=
  claim_C8.1 b31 .one (by decide) (by decide)

/-- C6: when the timeout threshold exceeds every value the time-remaining
callback can return, the very first cancellation check fires, the
`SearchTimeout` is caught inside `get_move`, and both search agents
return the no-move sentinel. -/
theorem claim_C6 (clk : Nat → ℚ) (θ : ℚ) (sc : Board → ℚ) (p : Player)
    (g : Board) (d : Int) (h : ∀ k, clk k < θ) :
    MinimaxPlayer.get_move clk θ sc g d = some sentinel ∧
    AlphaBetaPlayer.get_move clk θ sc p g d = some sentinel := by
  constructor
  · simp [MinimaxPlayer.get_move, MinimaxPlayer.minimaxT, h 0]
  · simp [AlphaBetaPlayer.get_move, AlphaBetaPlayer.alphabetaT, h 0]

/-- C6 witness: a zero-budget callback against threshold 10 on a concrete
board with legal moves. -/
theorem claim_C6_witness :
    MinimaxPlayer.get_move (fun _ => 0) 10 (fun g => null_score g .one) topC3 3 = some sentinel ∧
    AlphaBetaPlayer.get_move (fun _ => 0) 10 (fun g => null_score g .one) .one topC3 3 = some sentinel :=
  claim_C6 (fun _ => 0) 10 (fun g => null_score g .one) .one topC3 3 (fun _ => by norm_num)

/-- C1 is false of the code: on a board whose legal-move set is empty,
with ample time, `MinimaxPlayer.get_move` and `AlphaBetaPlayer.get_move`
return Python `None` (the root loops never run and `best_move = None` is
returned), not the sentinel `(-1, -1)`; the simple agents do return the
sentinel. -/
theorem claim_C1_bug :
    dead1.legalMoves = [] ∧
    MinimaxPlayer.get_move (fun _ => 100) 10 (fun g => null_score g .one) dead1 3 = none ∧
    AlphaBetaPlayer.get_move (fun _ => 100) 10 (fun g => null_score g .one) .one dead1 3 = none ∧
    (none : Option Move) ≠ some sentinel ∧
    RandomPlayer.get_move dead1 0 = sentinel ∧
    GreedyPlayer.get_move null_score .one dead1 = sentinel ∧
    HumanPlayer.get_move dead1 0 = sentinel := by
  decide

/-- C9 is false of the code at the same slip: on an empty legal-move set
the search agents' `get_move` returns `None`, which is neither the
sentinel nor a member of the (empty) legal-move set. -/
theorem claim_C9_bug :
    MinimaxPlayer.get_move (fun _ => 50) 1 (fun g => open_move_score g .two) dead2 2 = none ∧
    AlphaBetaPlayer.get_move (fun _ => 50) 1 (fun g => open_move_score g .two) .two dead2 2 = none ∧
    (∀ m : Move,
      MinimaxPlayer.get_move (fun _ => 50) 1 (fun g => open_move_score g .two) dead2 2 ≠ some m) := by
  refine ⟨by decide, by decide, ?_⟩
  intro m
  have h : MinimaxPlayer.get_move (fun _ => 50) 1 (fun g => open_move_score g .two) dead2 2 = none := by
    decide
  rw [h]
  exact fun hc => Option.noConfusion hc

/-- C4 is false of the code: at the concrete two-ply board, the source's
`farsighted_score` (which applies the opponent reply to the ORIGINAL
board) returns 0, while the spec's formula (reply applied to the board
resulting from the first move) gives -1. -/
theorem claim_C4_bug :
    farsighted_score none gC4 .one = 0 ∧
    farsighted_score_spec none gC4 .one = -1 ∧
    farsighted_score none gC4 .one ≠ farsighted_score_spec none gC4 .one := by
  refine ⟨?_, ?_, ?_⟩ <;>
    simp [farsighted_score, farsighted_score_spec, gC4, g1C4, gYC4, dead1, dead2,
      infoA, infoB, Board.isLoser, Board.isWinner, Board.legalMovesOf, Board.forecast,
      Board.info, Player.other]

/-- C2 is false as stated: with the null heuristic on a non-terminal
board whose legal moves are enumerated as `[(0,0), (1,1)]`, all one-ply
scores tie at 0, yet `GreedyPlayer.get_move` returns `(1,1)` — the
lexicographically greatest move — not the first enumerated move
`(0,0)`. -/
theorem claim_C2_counterexample :
    bGreedy.legalMoves = [((0 : Int), (0 : Int)), (1, 1)] ∧
    (∀ m ∈ bGreedy.legalMoves, null_score (bGreedy.forecast m) .one = 0) ∧
    GreedyPlayer.get_move null_score .one bGreedy = (1, 1) := by
  decide

/-- The Python tuple order is irreflexive. -/
theorem pairLt_irrefl (a : ℚ × Move) : ¬ pairLt a a := by
  unfold pairLt
  simp

/-- The Python tuple order is transitive. -/
theorem pairLt_trans {a b c : ℚ × Move} (h1 : pairLt a b) (h2 : pairLt b c) :
    pairLt a c := by
  unfold pairLt at h1 h2 ⊢
  rcases h1 with h1 | ⟨e1, h1⟩ <;> rcases h2 with h2 | ⟨e2, h2⟩
  · exact Or.inl (h1.trans h2)
  · exact Or.inl (lt_of_lt_of_eq h1 e2)
  · exact Or.inl (lt_of_eq_of_lt e1 h2)
  · refine Or.inr ⟨e1.trans e2, ?_⟩
    rcases h1 with h1 | ⟨f1, h1⟩ <;> rcases h2 with h2 | ⟨f2, h2⟩
    · exact Or.inl (h1.trans h2)
    · exact Or.inl (lt_of_lt_of_eq h1 f2)
    · exact Or.inl (lt_of_eq_of_lt f1 h2)
    · exact Or.inr ⟨f1.trans f2, h1.trans h2⟩

/-- The Python tuple order is total. -/
theorem pairLt_total (a b : ℚ × Move) : a = b ∨ pairLt a b ∨ pairLt b a := by
  rcases a with ⟨sa, ra, ca⟩
  rcases b with ⟨sb, rb, cb⟩
  unfold pairLt
  rcases lt_trichotomy sa sb with h | h | h
  · exact Or.inr (Or.inl (Or.inl h))
  · rcases lt_trichotomy ra rb with h2 | h2 | h2
    · exact Or.inr (Or.inl (Or.inr ⟨h, Or.inl h2⟩))
    · rcases lt_trichotomy ca cb with h3 | h3 | h3
      · exact Or.inr (Or.inl (Or.inr ⟨h, Or.inr ⟨h2, h3⟩⟩))
      · exact Or.inl (by simp [h, h2, h3])
      · exact Or.inr (Or.inr (Or.inr ⟨h.symm, Or.inr ⟨h2.symm, h3⟩⟩))
    · exact Or.inr (Or.inr (Or.inr ⟨h.symm, Or.inl h2⟩))
  · exact Or.inr (Or.inr (Or.inl h))

/-- Python's `max` returns an element of the scanned list. -/
theorem pyMax_mem (x : ℚ × Move) (xs : List (ℚ × Move)) :
    pyMax x xs = x ∨ pyMax x xs ∈ xs := by
  induction xs generalizing x with
  | nil => exact Or.inl rfl
  | cons y ys ih =>
    rw [pyMax]
    by_cases hxy : pairLt x y
    · rw [if_pos hxy]
      rcases ih y with h | h
      · exact Or.inr (by rw [h]; exact List.mem_cons_self _ _)
      · exact Or.inr (List.mem_cons_of_mem _ h)
    · rw [if_neg hxy]
      rcases ih x with h | h
      · exact Or.inl h
      · exact Or.inr (List.mem_cons_of_mem _ h)

/-- No scanned element is strictly greater than Python's `max`. -/
theorem pyMax_not_lt (x : ℚ × Move) (xs : List (ℚ × Move)) :
    ∀ y, y = x ∨ y ∈ xs → ¬ pairLt (pyMax x xs) y := by
  induction xs generalizing x with
  | nil =>
    rintro y (rfl | hy)
    · exact pairLt_irrefl y
    · cases hy
  | cons z zs ih =>
    rw [pyMax]
    by_cases h : pairLt x z
    · rw [if_pos h]
      rintro y (rfl | hy)
      · exact fun hc => ih z z (Or.inl rfl) (pairLt_trans hc h)
      · rcases List.mem_cons.mp hy with rfl | hy
        · exact ih y y (Or.inl rfl)
        · exact ih z y (Or.inr hy)
    · rw [if_neg h]
      rintro y (rfl | hy)
      · exact ih y y (Or.inl rfl)
      · rcases List.mem_cons.mp hy with rfl | hy
        · intro hc
          rcases pairLt_total x y with heq | hxz | hzx
          · exact ih x y (Or.inl heq.symm) hc
          · exact h hxz
          · exact ih x x (Or.inl rfl) (pairLt_trans hc hzx)
        · exact ih x y (Or.inr hy)

/-- Unfolding `GreedyPlayer.get_move` on a board with legal moves. -/
theorem GreedyPlayer.get_move_eq (sc : Board → Player → ℚ) (p : Player)
    (g : Board) (m0 : Move) (ms : List Move) (hE : g.legalMoves = m0 :: ms) :
    GreedyPlayer.get_move sc p g =
      (pyMax (sc (g.forecast m0) p, m0) (ms.map fun m => (sc (g.forecast m) p, m))).2 := by
  unfold GreedyPlayer.get_move
  rw [hE]
  rfl

/-- C2, amended: on a non-empty legal-move set, Greedy returns a legal
move achieving the maximum one-ply heuristic score; ties are broken by
Python's `max` over `(score, move)` tuples, i.e. towards the move with
the LEXICOGRAPHICALLY GREATEST coordinates, not the first enumerated
one. -/
theorem claim_C2_amended (sc : Board → Player → ℚ) (p : Player) (g : Board)
    (h : g.legalMoves ≠ []) :
    GreedyPlayer.get_move sc p g ∈ g.legalMoves ∧
    (∀ m ∈ g.legalMoves,
      sc (g.forecast m) p ≤ sc (g.forecast (GreedyPlayer.get_move sc p g)) p) ∧
    (∀ m ∈ g.legalMoves,
      sc (g.forecast m) p = sc (g.forecast (GreedyPlayer.get_move sc p g)) p →
        m.1 < (GreedyPlayer.get_move sc p g).1 ∨
          (m.1 = (GreedyPlayer.get_move sc p g).1 ∧
            m.2 ≤ (GreedyPlayer.get_move sc p g).2)) := by
  rcases List.exists_cons_of_ne_nil h with ⟨m0, ms, hE⟩
  have hr := GreedyPlayer.get_move_eq sc p g m0 ms hE
  set x := (sc (g.forecast m0) p, m0) with hx
  set xs := ms.map fun m => (sc (g.forecast m) p, m) with hxs
  have hmem : ∃ mP, mP ∈ g.legalMoves ∧ pyMax x xs = (sc (g.forecast mP) p, mP) := by
    rcases pyMax_mem x xs with h1 | h1
    · exact ⟨m0, by rw [hE]; exact List.mem_cons_self _ _, h1⟩
    · rcases List.mem_map.mp h1 with ⟨mP, hmP, hPe⟩
      exact ⟨mP, by rw [hE]; exact List.mem_cons_of_mem _ hmP, hPe.symm⟩
  obtain ⟨mP, hmPmem, hPeq⟩ := hmem
  have hrP : GreedyPlayer.get_move sc p g = mP := by rw [hr, hPeq]
  have key : ∀ m ∈ g.legalMoves, ¬ pairLt (pyMax x xs) (sc (g.forecast m) p, m) := by
    intro m hm
    rw [hE] at hm
    rcases List.mem_cons.mp hm with rfl | hm
    · exact pyMax_not_lt x xs _ (Or.inl rfl)
    · exact pyMax_not_lt x xs _ (Or.inr (List.mem_map.mpr ⟨m, hm, rfl⟩))
  refine ⟨hrP ▸ hmPmem, ?_, ?_⟩
  · intro m hm
    have hk := key m hm
    rw [hPeq] at hk
    unfold pairLt at hk
    push_neg at hk
    rw [hrP]
    exact hk.1
  · intro m hm hsc
    have hk := key m hm
    rw [hPeq] at hk
    unfold pairLt at hk
    push_neg at hk
    rw [hrP] at hsc ⊢
    have hk2 := hk.2 hsc.symm
    rcases lt_or_eq_of_le (hk2.1 : m.1 ≤ mP.1) with h1 | h1
    · exact Or.inl h1
    · exact Or.inr ⟨h1, hk2.2 h1.symm⟩

/-- C2 amended witness: the amended statement at the concrete tie board
with the null heuristic. -/
theorem claim_C2_amended_witness :
    GreedyPlayer.get_move null_score .one bGreedy ∈ bGreedy.legalMoves ∧
    (∀ m ∈ bGreedy.legalMoves,
      null_score (bGreedy.forecast m) .one ≤
        null_score (bGreedy.forecast (GreedyPlayer.get_move null_score .one bGreedy)) .one) :=
  ⟨(claim_C2_amended null_score .one bGreedy (by decide)).1,
   (claim_C2_amended null_score .one bGreedy (by decide)).2.1⟩

/-- A completed timed minimax move loop yields a value. -/
theorem MinimaxPlayer.valueLoopT_ok (f : Move → Nat → Except Unit (V × Nat))
    (op : V → V → V) (hf : ∀ m k, ∃ v k1, f m k = .ok (v, k1)) :
    ∀ (ms : List Move) (s : V) (k : Nat),
      ∃ v k1, MinimaxPlayer.valueLoopT f op ms s k = .ok (v, k1) := by
  intro ms
  induction ms with
  | nil => exact fun s k => ⟨s, k, rfl⟩
  | cons m ms ih =>
    intro s k
    obtain ⟨v, k1, hv⟩ := hf m k
    obtain ⟨v2, k2, hv2⟩ := ih (op s v) k1
    exact ⟨v2, k2, by rw [MinimaxPlayer.valueLoopT, hv]; exact hv2⟩

/-- With every callback value at or above the threshold, the timed
minimax value functions never raise. -/
theorem MinimaxPlayer.valueT_completes (clk : Nat → ℚ) (θ : ℚ) (sc : Board → ℚ)
    (hclk : ∀ j, θ ≤ clk j) :
    ∀ (g : Board) (isMax : Bool) (d : Int) (k : Nat),
      ∃ v k1, MinimaxPlayer.valueT clk θ sc isMax g d k = .ok (v, k1) := by
  intro g
  induction g with
  | stuck i =>
    intro isMax d k
    refine ⟨toV (sc (.stuck i)), k + 2, ?_⟩
    simp [MinimaxPlayer.valueT, not_lt.mpr (hclk k), not_lt.mpr (hclk (k + 1))]
  | mk i lm f ih =>
    intro isMax d k
    rw [MinimaxPlayer.valueT]
    rw [if_neg (not_lt.mpr (hclk k)), if_neg (not_lt.mpr (hclk (k + 1)))]
    by_cases hterm : d = 0 ∨ lm i.active = []
    · exact ⟨_, _, by rw [if_pos hterm]⟩
    · rw [if_neg hterm]
      exact MinimaxPlayer.valueLoopT_ok _ _ (fun m k1 => ih m (!isMax) (d - 1) k1) _ _ _

/-- Unfolding one completed iteration of the timed minimax root loop. -/
theorem MinimaxPlayer.rootLoopT_step (f : Move → Nat → Except Unit (V × Nat))
    (m : Move) (ms : List Move) (s : V) (b : Option Move) (k : Nat)
    (v : V) (k1 : Nat) (hv : f m k = .ok (v, k1)) :
    MinimaxPlayer.rootLoopT f (m :: ms) s b k =
      if s < v then MinimaxPlayer.rootLoopT f ms v (some m) k1
      else MinimaxPlayer.rootLoopT f ms s b k1 := by
  rw [MinimaxPlayer.rootLoopT, hv]
  rfl

/-- A completed timed minimax root loop yields a result. -/
theorem MinimaxPlayer.rootLoopT_completes (f : Move → Nat → Except Unit (V × Nat))
    (hf : ∀ m k, ∃ v k1, f m k = .ok (v, k1)) :
    ∀ (ms : List Move) (s : V) (b : Option Move) (k : Nat),
      ∃ r k1, MinimaxPlayer.rootLoopT f ms s b k = .ok (r, k1) := by
  intro ms
  induction ms with
  | nil => exact fun s b k => ⟨(s, b), k, rfl⟩
  | cons m ms ih =>
    intro s b k
    obtain ⟨v, k1, hv⟩ := hf m k
    rw [MinimaxPlayer.rootLoopT_step f m ms s b k v k1 hv]
    by_cases hcmp : s < v
    · obtain ⟨r, k2, hr⟩ := ih v (some m) k1
      exact ⟨r, k2, by rw [if_pos hcmp]; exact hr⟩
    · obtain ⟨r, k2, hr⟩ := ih s b k1
      exact ⟨r, k2, by rw [if_neg hcmp]; exact hr⟩

/-- Unfolding one completed iteration of the timed alpha-beta maximizing
loop. -/
theorem AlphaBetaPlayer.maxLoopT_cons (f : Move → V → Nat → Except Unit (V × Nat))
    (β : V) (m : Move) (ms : List Move) (s α : V) (k : Nat)
    (v : V) (k1 : Nat) (hv : f m α k = .ok (v, k1)) :
    AlphaBetaPlayer.maxLoopT f β (m :: ms) s α k =
      if β ≤ max s v then .ok (max s v, k1)
      else AlphaBetaPlayer.maxLoopT f β ms (max s v) (max α (max s v)) k1 := by
  rw [AlphaBetaPlayer.maxLoopT, hv]
  rfl

/-- A completed timed alpha-beta maximizing loop yields a value. -/
theorem AlphaBetaPlayer.maxLoopT_ok (f : Move → V → Nat → Except Unit (V × Nat))
    (β : V) (hf : ∀ m a k, ∃ v k1, f m a k = .ok (v, k1)) :
    ∀ (ms : List Move) (s α : V) (k : Nat),
      ∃ v k1, AlphaBetaPlayer.maxLoopT f β ms s α k = .ok (v, k1) := by
  intro ms
  induction ms with
  | nil => exact fun s α k => ⟨s, k, rfl⟩
  | cons m ms ih =>
    intro s α k
    obtain ⟨v, k1, hv⟩ := hf m α k
    rw [AlphaBetaPlayer.maxLoopT_cons f β m ms s α k v k1 hv]
    by_cases hcut : β ≤ max s v
    · exact ⟨max s v, k1, by rw [if_pos hcut]⟩
    · obtain ⟨r, k2, hr⟩ := ih (max s v) (max α (max s v)) k1
      exact ⟨r, k2, by rw [if_neg hcut]; exact hr⟩

/-- Unfolding one completed iteration of the timed alpha-beta minimizing
loop. -/
theorem AlphaBetaPlayer.minLoopT_cons (f : Move → V → Nat → Except Unit (V × Nat))
    (α : V) (m : Move) (ms : List Move) (s β : V) (k : Nat)
    (v : V) (k1 : Nat) (hv : f m β k = .ok (v, k1)) :
    AlphaBetaPlayer.minLoopT f α (m :: ms) s β k =
      if min s v ≤ α then .ok (min s v, k1)
      else AlphaBetaPlayer.minLoopT f α ms (min s v) (min β (min s v)) k1 := by
  rw [AlphaBetaPlayer.minLoopT, hv]
  rfl

/-- A completed timed alpha-beta minimizing loop yields a value. -/
theorem AlphaBetaPlayer.minLoopT_ok (f : Move → V → Nat → Except Unit (V × Nat))
    (α : V) (hf : ∀ m b k, ∃ v k1, f m b k = .ok (v, k1)) :
    ∀ (ms : List Move) (s β : V) (k : Nat),
      ∃ v k1, AlphaBetaPlayer.minLoopT f α ms s β k = .ok (v, k1) := by
  intro ms
  induction ms with
  | nil => exact fun s β k => ⟨s, k, rfl⟩
  | cons m ms ih =>
    intro s β k
    obtain ⟨v, k1, hv⟩ := hf m β k
    rw [AlphaBetaPlayer.minLoopT_cons f α m ms s β k v k1 hv]
    by_cases hcut : min s v ≤ α
    · exact ⟨min s v, k1, by rw [if_pos hcut]⟩
    · obtain ⟨r, k2, hr⟩ := ih (min s v) (min β (min s v)) k1
      exact ⟨r, k2, by rw [if_neg hcut]; exact hr⟩

/-- With every callback value at or above the threshold, the timed
alpha-beta value functions never raise. -/
theorem AlphaBetaPlayer.valueT_ok (clk : Nat → ℚ) (θ : ℚ) (sc : Board → ℚ)
    (p : Player) (hclk : ∀ j, θ ≤ clk j) :
    ∀ (g : Board) (isMax : Bool) (d : Int) (α β : V) (k : Nat),
      ∃ v k1, AlphaBetaPlayer.valueT clk θ sc p isMax g d α β k = .ok (v, k1) := by
  intro g
  induction g with
  | stuck i =>
    intro isMax d α β k
    refine ⟨toV (sc (.stuck i)), k + 2, ?_⟩
    simp [AlphaBetaPlayer.valueT, not_lt.mpr (hclk k), not_lt.mpr (hclk (k + 1))]
  | mk i lm f ih =>
    intro isMax d α β k
    rw [AlphaBetaPlayer.valueT]
    rw [if_neg (not_lt.mpr (hclk k)), if_neg (not_lt.mpr (hclk (k + 1)))]
    by_cases hterm : d = 0 ∨ lm i.active = []
    · exact ⟨_, _, by rw [if_pos hterm]⟩
    · rw [if_neg hterm]
      cases isMax with
      | true =>
        rw [if_pos rfl]
        exact AlphaBetaPlayer.maxLoopT_ok _ _
          (fun m a k1 => ih m false (d - 1) a β k1) _ _ _ _
      | false =>
        rw [if_neg (by simp)]
        exact AlphaBetaPlayer.minLoopT_ok _ _
          (fun m b k1 => ih m true (d - 1) α b k1) _ _ _ _

/-- Unfolding one completed iteration of the timed alpha-beta root
loop. -/
theorem AlphaBetaPlayer.rootLoopT_cons (f : Move → V → Nat → Except Unit (V × Nat))
    (β : V) (m : Move) (ms : List Move) (s : V) (b : Option Move) (α : V) (k : Nat)
    (v : V) (k1 : Nat) (hv : f m α k = .ok (v, k1)) :
    AlphaBetaPlayer.rootLoopT f β (m :: ms) s b α k =
      if β ≤ (if s < v then v else s) then
        .ok (((if s < v then v else s), (if s < v then some m else b)), k1)
      else
        AlphaBetaPlayer.rootLoopT f β ms (if s < v then v else s)
          (if s < v then some m else b) (max α (if s < v then v else s)) k1 := by
  rw [AlphaBetaPlayer.rootLoopT, hv]
  rfl

/-- A completed timed alpha-beta root loop yields a result. -/
theorem AlphaBetaPlayer.rootLoopT_ok (f : Move → V → Nat → Except Unit (V × Nat))
    (β : V) (hf : ∀ m a k, ∃ v k1, f m a k = .ok (v, k1)) :
    ∀ (ms : List Move) (s : V) (b : Option Move) (α : V) (k : Nat),
      ∃ r k1, AlphaBetaPlayer.rootLoopT f β ms s b α k = .ok (r, k1) := by
  intro ms
  induction ms with
  | nil => exact fun s b α k => ⟨(s, b), k, rfl⟩
  | cons m ms ih =>
    intro s b α k
    obtain ⟨v, k1, hv⟩ := hf m α k
    rw [AlphaBetaPlayer.rootLoopT_cons f β m ms s b α k v k1 hv]
    by_cases hcut : β ≤ (if s < v then v else s)
    · exact ⟨_, k1, by rw [if_pos hcut]⟩
    · obtain ⟨r, k2, hr⟩ := ih (if s < v then v else s)
        (if s < v then some m else b) (max α (if s < v then v else s)) k1
      exact ⟨r, k2, by rw [if_neg hcut]; exact hr⟩

/-- C5 is false as stated at the boundary: with the callback pinned
exactly AT the threshold (at or below it), the timed minimax root does
not raise — it completes and produces a value, because the source tests
`time_left() < TIMER_THRESHOLD` strictly. -/
theorem claim_C5_counterexample :
    MinimaxPlayer.minimaxT (fun _ => 10) 10 (fun g => null_score g .one) dead1 3 0 =
      .ok (none, 1) ∧
    AlphaBetaPlayer.alphabetaT (fun _ => 10) 10 (fun g => null_score g .one) .one dead1 3 ⊥ ⊤ 0 =
      .ok (none, 1) :=
  ⟨rfl, rfl⟩

/-- C5, amended: the cancellation check raises exactly when the
remaining-time callback's value is STRICTLY below the threshold.  Part
one: at every recursion level (root, `_min_value`, `_max_value`, for
both agents), a strictly-below reading makes the search return the
timeout signal before doing any work, and the `Except` result carries no
value.  Part two: while every reading stays at or above the threshold
(in particular, strictly above), no timeout is ever raised and every
level produces a value. -/
theorem claim_C5_amended (clk : Nat → ℚ) (θ : ℚ) (sc : Board → ℚ) (p : Player) :
    (∀ (g : Board) (d : Int) (k : Nat) (isMax : Bool) (α β : V), clk k < θ →
      MinimaxPlayer.valueT clk θ sc isMax g d k = .error () ∧
      MinimaxPlayer.minimaxT clk θ sc g d k = .error () ∧
      AlphaBetaPlayer.valueT clk θ sc p isMax g d α β k = .error () ∧
      AlphaBetaPlayer.alphabetaT clk θ sc p g d α β k = .error ()) ∧
    ((∀ j, θ ≤ clk j) →
      ∀ (g : Board) (d : Int) (k : Nat) (isMax : Bool) (α β : V),
        (∃ v k1, MinimaxPlayer.valueT clk θ sc isMax g d k = .ok (v, k1)) ∧
        (∃ mv k1, MinimaxPlayer.minimaxT clk θ sc g d k = .ok (mv, k1)) ∧
        (∃ v k1, AlphaBetaPlayer.valueT clk θ sc p isMax g d α β k = .ok (v, k1)) ∧
        (∃ mv k1, AlphaBetaPlayer.alphabetaT clk θ sc p g d α β k = .ok (mv, k1))) := by
  constructor
  · intro g d k isMax α β h
    refine ⟨?_, ?_, ?_, ?_⟩
    · cases g <;> simp [MinimaxPlayer.valueT, h]
    · simp [MinimaxPlayer.minimaxT, h]
    · cases g <;> simp [AlphaBetaPlayer.valueT, h]
    · simp [AlphaBetaPlayer.alphabetaT, h]
  · intro hclk g d k isMax α β
    refine ⟨MinimaxPlayer.valueT_completes clk θ sc hclk g isMax d k, ?_,
      AlphaBetaPlayer.valueT_ok clk θ sc p hclk g isMax d α β k, ?_⟩
    · rw [MinimaxPlayer.minimaxT, if_neg (not_lt.mpr (hclk k))]
      obtain ⟨r, k1, hr⟩ := MinimaxPlayer.rootLoopT_completes _
        (fun m k1 => MinimaxPlayer.valueT_completes clk θ sc hclk (g.forecast m) false (d - 1) k1)
        g.legalMoves ⊥ none (k + 1)
      exact ⟨r.2, k1, by rw [hr]; rfl⟩
    · rw [AlphaBetaPlayer.alphabetaT, if_neg (not_lt.mpr (hclk k))]
      obtain ⟨r, k1, hr⟩ := AlphaBetaPlayer.rootLoopT_ok _ β
        (fun m a k1 =>
          AlphaBetaPlayer.valueT_ok clk θ sc p hclk (g.forecast m) false (d - 1) a β k1)
        g.legalMoves ⊥ none α (k + 1)
      exact ⟨r.2, k1, by rw [hr]; rfl⟩

/-- C5 amended witness: with the callback pinned strictly below the
threshold the root raises; with it pinned at the threshold the search
completes. -/
theorem claim_C5_amended_witness :
    MinimaxPlayer.valueT (fun _ => 5) 10 (fun g => null_score g .one) false dead1 2 0 =
      .error () ∧
    (∃ mv k1,
      MinimaxPlayer.minimaxT (fun _ => 10) 10 (fun g => null_score g .one) topC3 2 0 =
        .ok (mv, k1)) :=
  ⟨((claim_C5_amended (fun _ => 5) 10 (fun g => null_score g .one) .one).1 dead1 2 0 false ⊥ ⊤
      (by norm_num)).1,
   (((claim_C5_amended (fun _ => 10) 10 (fun g => null_score g .one) .one).2
      (fun _ => le_refl 10)) topC3 2 0 false ⊥ ⊤).2.1⟩

/-- The option-threaded minimax move loop succeeds when every child
search succeeds. -/
theorem MinimaxPlayer.valueF_loop_isSome (child : Move → Option V) (op : V → V → V) :
    ∀ (ms : List Move), (∀ m ∈ ms, (child m).isSome) →
      ∀ init : V,
        (ms.foldl (fun s? m => do
          let s ← s?
          let v ← child m
          pure (op s v)) (some init)).isSome := by
  intro ms
  induction ms with
  | nil => intro _ init; rfl
  | cons m ms ih =>
    intro hc init
    obtain ⟨v, hv⟩ := Option.isSome_iff_exists.mp (hc m (List.mem_cons_self _ _))
    rw [List.foldl_cons]
    have hstep : (do
        let s ← some init
        let v2 ← child m
        pure (op s v2)) = some (op init v) := by rw [hv]; rfl
    rw [hstep]
    exact ih (fun m2 hm2 => hc m2 (List.mem_cons_of_mem _ hm2)) (op init v)

/-- Fuel `search_depth` suffices for the fueled minimax value functions:
every recursive call decreases `depth` by exactly 1 and expansion stops
at `depth == 0` or at an empty legal-move list. -/
theorem MinimaxPlayer.valueF_enoughFuel (sc : Board → ℚ) :
    ∀ (fuel : Nat) (isMax : Bool) (g : Board) (d : Int),
      0 ≤ d → d.toNat < fuel → (MinimaxPlayer.valueF sc fuel isMax g d).isSome := by
  intro fuel
  induction fuel with
  | zero => intro _ _ d _ h2; omega
  | succ fuel ih =>
    intro isMax g d hd hf
    rw [MinimaxPlayer.valueF]
    by_cases hterm : d = 0 ∨ g.legalMoves = []
    · rw [if_pos hterm]; rfl
    · rw [if_neg hterm]
      push_neg at hterm
      exact MinimaxPlayer.valueF_loop_isSome
        (fun m => MinimaxPlayer.valueF sc fuel (!isMax) (g.forecast m) (d - 1))
        (fun s v => if isMax then max s v else min s v) g.legalMoves
        (fun m _ => ih (!isMax) (g.forecast m) (d - 1) (by omega) (by omega)) _

/-- The option-threaded minimax root loop succeeds when every child
search succeeds. -/
theorem MinimaxPlayer.rootF_loop_isSome (child : Move → Option V) :
    ∀ (ms : List Move), (∀ m ∈ ms, (child m).isSome) →
      ∀ acc : V × Option Move,
        (ms.foldl (fun acc? m => do
          let best ← acc?
          let min_value ← child m
          pure (if best.1 < min_value then (min_value, some m) else best)) (some acc)).isSome := by
  intro ms
  induction ms with
  | nil => intro _ acc; rfl
  | cons m ms ih =>
    intro hc acc
    obtain ⟨v, hv⟩ := Option.isSome_iff_exists.mp (hc m (List.mem_cons_self _ _))
    rw [List.foldl_cons]
    have hstep : (do
        let best ← some acc
        let min_value ← child m
        pure (if best.1 < min_value then (min_value, some m) else best)) =
          some (if acc.1 < v then (v, some m) else acc) := by rw [hv]; rfl
    rw [hstep]
    exact ih (fun m2 hm2 => hc m2 (List.mem_cons_of_mem _ hm2)) _

/-- Unfolding one successful iteration of the fueled alpha-beta
maximizing loop. -/
theorem AlphaBetaPlayer.maxLoopF_cons (f : Move → V → Option V) (β : V)
    (m : Move) (ms : List Move) (s α v : V) (hv : f m α = some v) :
    AlphaBetaPlayer.maxLoopF f β (m :: ms) s α =
      if β ≤ max s v then some (max s v)
      else AlphaBetaPlayer.maxLoopF f β ms (max s v) (max α (max s v)) := by
  rw [AlphaBetaPlayer.maxLoopF, hv]
  rfl

/-- The fueled alpha-beta maximizing loop succeeds when every child
search succeeds. -/
theorem AlphaBetaPlayer.maxLoopF_isSome (f : Move → V → Option V) (β : V)
    (hf : ∀ m a, (f m a).isSome) :
    ∀ (ms : List Move) (s α : V), (AlphaBetaPlayer.maxLoopF f β ms s α).isSome := by
  intro ms
  induction ms with
  | nil => intro s α; rfl
  | cons m ms ih =>
    intro s α
    obtain ⟨v, hv⟩ := Option.isSome_iff_exists.mp (hf m α)
    rw [AlphaBetaPlayer.maxLoopF_cons f β m ms s α v hv]
    by_cases hcut : β ≤ max s v
    · rw [if_pos hcut]; rfl
    · rw [if_neg hcut]; exact ih _ _

/-- Unfolding one successful iteration of the fueled alpha-beta
minimizing loop. -/
theorem AlphaBetaPlayer.minLoopF_cons (f : Move → V → Option V) (α : V)
    (m : Move) (ms : List Move) (s β v : V) (hv : f m β = some v) :
    AlphaBetaPlayer.minLoopF f α (m :: ms) s β =
      if min s v ≤ α then some (min s v)
      else AlphaBetaPlayer.minLoopF f α ms (min s v) (min β (min s v)) := by
  rw [AlphaBetaPlayer.minLoopF, hv]
  rfl

/-- The fueled alpha-beta minimizing loop succeeds when every child
search succeeds. -/
theorem AlphaBetaPlayer.minLoopF_isSome (f : Move → V → Option V) (α : V)
    (hf : ∀ m b, (f m b).isSome) :
    ∀ (ms : List Move) (s β : V), (AlphaBetaPlayer.minLoopF f α ms s β).isSome := by
  intro ms
  induction ms with
  | nil => intro s β; rfl
  | cons m ms ih =>
    intro s β
    obtain ⟨v, hv⟩ := Option.isSome_iff_exists.mp (hf m β)
    rw [AlphaBetaPlayer.minLoopF_cons f α m ms s β v hv]
    by_cases hcut : min s v ≤ α
    · rw [if_pos hcut]; rfl
    · rw [if_neg hcut]; exact ih _ _

/-- Fuel `search_depth` suffices for the fueled alpha-beta value
functions. -/
theorem AlphaBetaPlayer.valueF_isSome (sc : Board → ℚ) (p : Player) :
    ∀ (fuel : Nat) (isMax : Bool) (g : Board) (d : Int) (α β : V),
      0 ≤ d → d.toNat < fuel →
        (AlphaBetaPlayer.valueF sc p fuel isMax g d α β).isSome := by
  intro fuel
  induction fuel with
  | zero => intro _ _ d _ _ _ h2; omega
  | succ fuel ih =>
    intro isMax g d α β hd hf
    rw [AlphaBetaPlayer.valueF]
    by_cases hterm : d = 0 ∨ g.legalMoves = []
    · rw [if_pos hterm]; rfl
    · rw [if_neg hterm]
      push_neg at hterm
      cases isMax with
      | true =>
        rw [if_pos rfl]
        exact AlphaBetaPlayer.maxLoopF_isSome _ _
          (fun m a => ih false (g.forecast m) (d - 1) a β (by omega) (by omega)) _ _ _
      | false =>
        rw [if_neg (by simp)]
        exact AlphaBetaPlayer.minLoopF_isSome _ _
          (fun m b => ih true (g.forecast m) (d - 1) α b (by omega) (by omega)) _ _ _

/-- Unfolding one successful iteration of the fueled alpha-beta root
loop. -/
theorem AlphaBetaPlayer.rootLoopF_cons (f : Move → V → Option V) (β : V)
    (m : Move) (ms : List Move) (s : V) (b : Option Move) (α v : V)
    (hv : f m α = some v) :
    AlphaBetaPlayer.rootLoopF f β (m :: ms) s b α =
      if β ≤ (if s < v then v else s) then
        some ((if s < v then v else s), (if s < v then some m else b))
      else
        AlphaBetaPlayer.rootLoopF f β ms (if s < v then v else s)
          (if s < v then some m else b) (max α (if s < v then v else s)) := by
  rw [AlphaBetaPlayer.rootLoopF, hv]
  rfl

/-- The fueled alpha-beta root loop succeeds when every child search
succeeds. -/
theorem AlphaBetaPlayer.rootLoopF_isSome (f : Move → V → Option V) (β : V)
    (hf : ∀ m a, (f m a).isSome) :
    ∀ (ms : List Move) (s : V) (b : Option Move) (α : V),
      (AlphaBetaPlayer.rootLoopF f β ms s b α).isSome := by
  intro ms
  induction ms with
  | nil => intro s b α; rfl
  | cons m ms ih =>
    intro s b α
    obtain ⟨v, hv⟩ := Option.isSome_iff_exists.mp (hf m α)
    rw [AlphaBetaPlayer.rootLoopF_cons f β m ms s b α v hv]
    by_cases hcut : β ≤ (if s < v then v else s)
    · rw [if_pos hcut]; rfl
    · rw [if_neg hcut]; exact ih _ _ _

/-- C10: for every `search_depth >= 1`, both search recursions terminate
within `search_depth` nested value frames — each recursive call moves to
`depth - 1` and expansion stops at `depth == 0` or at an empty legal-move
list, so fuel `search_depth` is never exhausted.  (The root itself never
tests `depth == 0`; only the recursive value functions do, which is why
the bound on nested frames, not the root call, carries the depth.) -/
theorem claim_C10 (sc : Board → ℚ) (p : Player) (g : Board) (d : Int)
    (hd : 1 ≤ d) :
    (MinimaxPlayer.minimaxF sc d.toNat g d).isSome ∧
    (AlphaBetaPlayer.alphabetaF sc p d.toNat g d ⊥ ⊤).isSome := by
  constructor
  · exact MinimaxPlayer.rootF_loop_isSome _ g.legalMoves
      (fun m _ => MinimaxPlayer.valueF_enoughFuel sc d.toNat false (g.forecast m) (d - 1)
        (by omega) (by omega)) _
  · exact AlphaBetaPlayer.rootLoopF_isSome _ ⊤
      (fun m a => AlphaBetaPlayer.valueF_isSome sc p d.toNat false (g.forecast m) (d - 1) a ⊤
        (by omega) (by omega)) _ _ _ _

/-- C10 witness: the fueled searches complete at depth 2 on the concrete
alternating tree. -/
theorem claim_C10_witness :
    (MinimaxPlayer.minimaxF (fun g => null_score g .one) (Int.toNat 2) topC3 2).isSome ∧
    (AlphaBetaPlayer.alphabetaF (fun g => null_score g .one) .one (Int.toNat 2) topC3 2 ⊥ ⊤).isSome :=
  claim_C10 (fun g => null_score g .one) .one topC3 2 (by norm_num)

/-! ### Order facts about search scores -/

/-- Finite scores compare like their rationals. -/
theorem toV_le_toV {a b : ℚ} : toV a ≤ toV b ↔ a ≤ b := by
  unfold toV
  rw [WithBot.coe_le_coe, WithTop.coe_le_coe]

/-- Finite scores compare like their rationals, strictly. -/
theorem toV_lt_toV {a b : ℚ} : toV a < toV b ↔ a < b := by
  unfold toV
  rw [WithBot.coe_lt_coe, WithTop.coe_lt_coe]

/-- `float("-inf")` is below every finite score. -/
theorem bot_lt_toV (q : ℚ) : (⊥ : V) < toV q := WithBot.bot_lt_coe _

/-- Every finite score is below `float("inf")`. -/
theorem toV_lt_top (q : ℚ) : toV q < (⊤ : V) := by
  unfold toV
  exact (WithBot.coe_lt_coe).mpr (WithTop.coe_lt_top q)

/-- The maximum of two finite scores is finite. -/
theorem toV_max (a b : ℚ) : max (toV a) (toV b) = toV (max a b) := by
  rcases le_total a b with h | h
  · rw [max_eq_right h, max_eq_right (toV_le_toV.mpr h)]
  · rw [max_eq_left h, max_eq_left (toV_le_toV.mpr h)]

/-- The minimum of two finite scores is finite. -/
theorem toV_min (a b : ℚ) : min (toV a) (toV b) = toV (min a b) := by
  rcases le_total a b with h | h
  · rw [min_eq_left h, min_eq_left (toV_le_toV.mpr h)]
  · rw [min_eq_right h, min_eq_right (toV_le_toV.mpr h)]

/-! ### Facts about the running-maximum and running-minimum folds -/

/-- A running-maximum fold splits off its initial accumulator. -/
theorem foldl_max_split (t : Move → V) :
    ∀ (ms : List Move) (init : V),
      ms.foldl (fun a m => max a (t m)) init =
        max init (ms.foldl (fun a m => max a (t m)) ⊥) := by
  intro ms
  induction ms with
  | nil => intro init; simp
  | cons m ms ih =>
    intro init
    rw [List.foldl_cons, List.foldl_cons, ih (max init (t m)),
      ih (max ⊥ (t m))]
    rw [max_comm (⊥ : V) (t m), max_eq_left bot_le, max_assoc]

/-- A running-minimum fold splits off its initial accumulator. -/
theorem foldl_min_split (t : Move → V) :
    ∀ (ms : List Move) (init : V),
      ms.foldl (fun a m => min a (t m)) init =
        min init (ms.foldl (fun a m => min a (t m)) ⊤) := by
  intro ms
  induction ms with
  | nil => intro init; simp
  | cons m ms ih =>
    intro init
    rw [List.foldl_cons, List.foldl_cons, ih (min init (t m)),
      ih (min ⊤ (t m))]
    rw [min_comm (⊤ : V) (t m), min_eq_left le_top, min_assoc]

/-- The initial accumulator bounds a running-maximum fold from below. -/
theorem le_foldl_max (t : Move → V) (ms : List Move) (init : V) :
    init ≤ ms.foldl (fun a m => max a (t m)) init := by
  rw [foldl_max_split]
  exact le_max_left _ _

/-- A running-maximum fold dominates every entry. -/
theorem foldl_max_ge_mem (t : Move → V) :
    ∀ (ms : List Move) (init : V) (m : Move), m ∈ ms →
      t m ≤ ms.foldl (fun a m => max a (t m)) init := by
  intro ms
  induction ms with
  | nil => intro _ m hm; cases hm
  | cons m0 ms ih =>
    intro init m hm
    rw [List.foldl_cons]
    rcases List.mem_cons.mp hm with rfl | hm
    · exact le_trans (le_max_right init (t m)) (le_foldl_max t ms _)
    · exact ih _ m hm

/-- A running-maximum fold is monotone in its initial accumulator. -/
theorem foldl_max_mono (t : Move → V) (ms : List Move) {i1 i2 : V}
    (h : i1 ≤ i2) :
    ms.foldl (fun a m => max a (t m)) i1 ≤ ms.foldl (fun a m => max a (t m)) i2 := by
  rw [foldl_max_split t ms i1, foldl_max_split t ms i2]
  exact max_le_max h le_rfl

/-- The initial accumulator bounds a running-minimum fold from above. -/
theorem foldl_min_le (t : Move → V) (ms : List Move) (init : V) :
    ms.foldl (fun a m => min a (t m)) init ≤ init := by
  rw [foldl_min_split]
  exact min_le_left _ _

/-- A running-minimum fold is below every entry. -/
theorem foldl_min_le_mem (t : Move → V) :
    ∀ (ms : List Move) (init : V) (m : Move), m ∈ ms →
      ms.foldl (fun a m => min a (t m)) init ≤ t m := by
  intro ms
  induction ms with
  | nil => intro _ m hm; cases hm
  | cons m0 ms ih =>
    intro init m hm
    rw [List.foldl_cons]
    rcases List.mem_cons.mp hm with rfl | hm
    · exact le_trans (foldl_min_le t ms _) (min_le_right init (t m))
    · exact ih _ m hm

/-- A running-minimum fold is monotone in its initial accumulator. -/
theorem foldl_min_mono (t : Move → V) (ms : List Move) {i1 i2 : V}
    (h : i1 ≤ i2) :
    ms.foldl (fun a m => min a (t m)) i1 ≤ ms.foldl (fun a m => min a (t m)) i2 := by
  rw [foldl_min_split t ms i1, foldl_min_split t ms i2]
  exact min_le_min h le_rfl

/-- A running-maximum fold of finite entries from a finite accumulator is
finite. -/
theorem foldl_max_finite (t : Move → V) :
    ∀ (ms : List Move), (∀ m ∈ ms, ∃ q, t m = toV q) →
      ∀ init : ℚ, ∃ q, ms.foldl (fun a m => max a (t m)) (toV init) = toV q := by
  intro ms
  induction ms with
  | nil => intro _ init; exact ⟨init, rfl⟩
  | cons m ms ih =>
    intro hfin init
    obtain ⟨qm, hqm⟩ := hfin m (List.mem_cons_self _ _)
    rw [List.foldl_cons, hqm, toV_max]
    exact ih (fun m2 hm2 => hfin m2 (List.mem_cons_of_mem _ hm2)) _

/-- A running-minimum fold of finite entries from a finite accumulator is
finite. -/
theorem foldl_min_finite (t : Move → V) :
    ∀ (ms : List Move), (∀ m ∈ ms, ∃ q, t m = toV q) →
      ∀ init : ℚ, ∃ q, ms.foldl (fun a m => min a (t m)) (toV init) = toV q := by
  intro ms
  induction ms with
  | nil => intro _ init; exact ⟨init, rfl⟩
  | cons m ms ih =>
    intro hfin init
    obtain ⟨qm, hqm⟩ := hfin m (List.mem_cons_self _ _)
    rw [List.foldl_cons, hqm, toV_min]
    exact ih (fun m2 hm2 => hfin m2 (List.mem_cons_of_mem _ hm2)) _

/-! ### Unfolding lemmas for the untimed searches -/

/-- A maximizing minimax node that is not terminal folds the maximum of
its children's minimizing values. -/
theorem MinimaxPlayer.value_node_max (sc : Board → ℚ) (i : BoardInfo)
    (lm : Player → List Move) (f : Move → Board) (d : Int)
    (h : ¬(d = 0 ∨ lm i.active = [])) :
    MinimaxPlayer.value sc true (.mk i lm f) d =
      (lm i.active).foldl
        (fun score m => max score (MinimaxPlayer.value sc false (f m) (d - 1))) ⊥ := by
  rw [MinimaxPlayer.value, if_neg h]
  simp

/-- A minimizing minimax node that is not terminal folds the minimum of
its children's maximizing values. -/
theorem MinimaxPlayer.value_node_min (sc : Board → ℚ) (i : BoardInfo)
    (lm : Player → List Move) (f : Move → Board) (d : Int)
    (h : ¬(d = 0 ∨ lm i.active = [])) :
    MinimaxPlayer.value sc false (.mk i lm f) d =
      (lm i.active).foldl
        (fun score m => min score (MinimaxPlayer.value sc true (f m) (d - 1))) ⊤ := by
  rw [MinimaxPlayer.value, if_neg h]
  simp

/-- A non-terminal maximizing alpha-beta node runs the pruning loop over
the agent's legal moves. -/
theorem AlphaBetaPlayer.value_mk_max (sc : Board → ℚ) (p : Player) (i : BoardInfo)
    (lm : Player → List Move) (f : Move → Board) (d : Int) (α β : V)
    (h : ¬(d = 0 ∨ lm i.active = [])) :
    AlphaBetaPlayer.value sc p true (.mk i lm f) d α β =
      AlphaBetaPlayer.maxLoop
        (fun m a => AlphaBetaPlayer.value sc p false (f m) (d - 1) a β)
        β (lm p) ⊥ α := by
  rw [AlphaBetaPlayer.value, if_neg h]
  simp

/-- A non-terminal minimizing alpha-beta node runs the pruning loop over
the active player's legal moves. -/
theorem AlphaBetaPlayer.value_mk_min (sc : Board → ℚ) (p : Player) (i : BoardInfo)
    (lm : Player → List Move) (f : Move → Board) (d : Int) (α β : V)
    (h : ¬(d = 0 ∨ lm i.active = [])) :
    AlphaBetaPlayer.value sc p false (.mk i lm f) d α β =
      AlphaBetaPlayer.minLoop
        (fun m b => AlphaBetaPlayer.value sc p true (f m) (d - 1) α b)
        α (lm i.active) ⊤ β := by
  rw [AlphaBetaPlayer.value, if_neg h]
  simp

/-- Minimax values are always finite: terminal nodes return the heuristic
and non-terminal folds run over a non-empty move list of finite child
values. -/
theorem MinimaxPlayer.value_finite (sc : Board → ℚ) :
    ∀ (g : Board) (isMax : Bool) (d : Int),
      ∃ q, MinimaxPlayer.value sc isMax g d = toV q := by
  intro g
  induction g with
  | stuck i => intro isMax d; exact ⟨sc (.stuck i), rfl⟩
  | mk i lm f ih =>
    intro isMax d
    by_cases hterm : d = 0 ∨ lm i.active = []
    · exact ⟨sc (.mk i lm f), by rw [MinimaxPlayer.value, if_pos hterm]⟩
    · have hne : lm i.active ≠ [] := fun hc => hterm (Or.inr hc)
      rcases List.exists_cons_of_ne_nil hne with ⟨m0, ms, hms⟩
      cases isMax with
      | true =>
        rw [MinimaxPlayer.value_node_max sc i lm f d hterm, hms, List.foldl_cons]
        obtain ⟨q0, hq0⟩ := ih m0 false (d - 1)
        rw [hq0, max_eq_right bot_le]
        exact foldl_max_finite _ ms (fun m _ => ih m false (d - 1)) q0
      | false =>
        rw [MinimaxPlayer.value_node_min sc i lm f d hterm, hms, List.foldl_cons]
        obtain ⟨q0, hq0⟩ := ih m0 true (d - 1)
        rw [hq0, min_eq_right le_top]
        exact foldl_min_finite _ ms (fun m _ => ih m true (d - 1)) q0

/-! ### The fail-soft window property of the pruning loops

For a node searched with window `(α, β)`, the computed value `r` relates
to the true minimax value `v` as follows: if `r ≤ α` the search failed
low and `v ≤ r`; if `β ≤ r` it failed high and `r ≤ v`; inside the open
window the value is exact.  The two loop lemmas push this invariant
through one maximizing (resp. minimizing) layer, assuming it for the
children. -/

/-- If a value is bounded by a maximum whose first argument is strictly
below it, it is bounded by the second argument. -/
theorem le_of_le_max_of_lt {r x M : V} (h : r ≤ max x M) (hx : x < r) : r ≤ M := by
  rcases max_choice x M with hh | hh
  · rw [hh] at h
    exact absurd (lt_of_lt_of_le hx h) (lt_irrefl x)
  · rw [hh] at h
    exact h

/-- If a value equals a maximum whose first argument is strictly below
it, it equals the second argument. -/
theorem eq_of_eq_max_of_lt {r x M : V} (h : r = max x M) (hx : x < r) : r = M := by
  rcases max_choice x M with hh | hh
  · rw [hh] at h
    exact absurd (h ▸ hx) (lt_irrefl x)
  · rw [hh] at h
    exact h

/-- Dual of `le_of_le_max_of_lt` for minima. -/
theorem min_le_of_le_of_lt {r x M : V} (h : min x M ≤ r) (hx : r < x) : M ≤ r := by
  rcases min_choice x M with hh | hh
  · rw [hh] at h
    exact absurd (lt_of_le_of_lt h hx) (lt_irrefl x)
  · rw [hh] at h
    exact h

/-- Dual of `eq_of_eq_max_of_lt` for minima. -/
theorem eq_of_eq_min_of_lt {r x M : V} (h : r = min x M) (hx : r < x) : r = M := by
  rcases min_choice x M with hh | hh
  · rw [hh] at h
    exact absurd (h ▸ hx) (lt_irrefl x)
  · rw [hh] at h
    exact h

/-- The maximizing pruning loop preserves the fail-soft window property:
if every child value `c m a` searched at window `(a, β)` relates to its
true value `t m` fail-softly, then the loop result at entry accumulator
`s` and entry alpha `max α0 s` relates fail-softly to the running
maximum of the true child values over `s`. -/
theorem AlphaBetaPlayer.maxLoop_spec (c : Move → V → V) (t : Move → V) (β : V)
    (hc : ∀ m a, a < β →
      (c m a ≤ a → t m ≤ c m a) ∧ (β ≤ c m a → c m a ≤ t m) ∧
      (a < c m a → c m a < β → c m a = t m)) :
    ∀ (ms : List Move) (s α0 : V), s < β → α0 < β →
      (AlphaBetaPlayer.maxLoop c β ms s (max α0 s) ≤ α0 →
        ms.foldl (fun a m => max a (t m)) s ≤
          AlphaBetaPlayer.maxLoop c β ms s (max α0 s)) ∧
      (β ≤ AlphaBetaPlayer.maxLoop c β ms s (max α0 s) →
        AlphaBetaPlayer.maxLoop c β ms s (max α0 s) ≤
          ms.foldl (fun a m => max a (t m)) s) ∧
      (α0 < AlphaBetaPlayer.maxLoop c β ms s (max α0 s) →
        AlphaBetaPlayer.maxLoop c β ms s (max α0 s) < β →
        AlphaBetaPlayer.maxLoop c β ms s (max α0 s) =
          ms.foldl (fun a m => max a (t m)) s) := by
  intro ms
  induction ms with
  | nil =>
    intro s α0 hs hα
    exact ⟨fun _ => le_rfl, fun _ => le_rfl, fun _ _ => rfl⟩
  | cons m ms ih =>
    intro s α0 hs hα
    have ha0β : max α0 s < β := max_lt hα hs
    obtain ⟨hca, hcb, hcc⟩ := hc m (max α0 s) ha0β
    have hstep : AlphaBetaPlayer.maxLoop c β (m :: ms) s (max α0 s) =
        if β ≤ max s (c m (max α0 s)) then max s (c m (max α0 s))
        else AlphaBetaPlayer.maxLoop c β ms (max s (c m (max α0 s)))
          (max (max α0 s) (max s (c m (max α0 s)))) := by
      rw [AlphaBetaPlayer.maxLoop]
    have htv : (m :: ms).foldl (fun a m => max a (t m)) s =
        ms.foldl (fun a m => max a (t m)) (max s (t m)) := rfl
    set cm := c m (max α0 s) with hcmdef
    by_cases hcut : β ≤ max s cm
    · -- break: the running score reached beta
      rw [hstep, if_pos hcut, htv]
      have hmaxeq : max s cm = cm := by
        rcases le_total s cm with h1 | h1
        · exact max_eq_right h1
        · rw [max_eq_left h1] at hcut
          exact absurd hcut (not_le.mpr hs)
      refine ⟨?_, ?_, ?_⟩
      · intro hlow
        exact absurd (le_trans hcut hlow) (not_le.mpr hα)
      · intro _
        have h1 : cm ≤ t m := hcb (hmaxeq ▸ hcut)
        calc max s cm ≤ max s (t m) := max_le_max le_rfl h1
          _ ≤ ms.foldl (fun a m => max a (t m)) (max s (t m)) := le_foldl_max _ _ _
      · intro _ hhigh
        exact absurd hcut (not_le.mpr hhigh)
    · -- continue scanning the remaining moves
      have hscmβ : max s cm < β := not_le.mp hcut
      have harg : max (max α0 s) (max s cm) = max α0 (max s cm) := by
        rw [max_assoc, ← max_assoc s s cm, max_self]
      rw [hstep, if_neg hcut, htv, harg]
      obtain ⟨ihA, ihB, ihC⟩ := ih (max s cm) α0 hscmβ hα
      by_cases h1 : cm ≤ max α0 s
      · -- the child failed low: its exact value is at most cm
        have htm : t m ≤ cm := hca h1
        have hinit : max s (t m) ≤ max s cm := max_le_max le_rfl htm
        have htvle : ms.foldl (fun a m => max a (t m)) (max s (t m)) ≤
            ms.foldl (fun a m => max a (t m)) (max s cm) := foldl_max_mono _ _ hinit
        refine ⟨?_, ?_, ?_⟩
        · intro hlow
          exact le_trans htvle (ihA hlow)
        · intro hhigh
          have hr := ihB hhigh
          rw [foldl_max_split] at hr
          have hM : AlphaBetaPlayer.maxLoop c β ms (max s cm) (max α0 (max s cm)) ≤
              ms.foldl (fun a m => max a (t m)) ⊥ :=
            le_of_le_max_of_lt hr (lt_of_lt_of_le hscmβ hhigh)
          rw [foldl_max_split]
          exact le_trans hM (le_max_right _ _)
        · intro hmid hhigh
          have hr := ihC hmid hhigh
          rcases le_max_iff.mp h1 with h2 | h2
          · -- cm ≤ α0 < r: the child contribution is dominated
            rw [foldl_max_split] at hr ⊢
            have hr2 : AlphaBetaPlayer.maxLoop c β ms (max s cm) (max α0 (max s cm)) =
                max (max s cm) (ms.foldl (fun a m => max a (t m)) ⊥) := hr
            have hcmlt : cm < AlphaBetaPlayer.maxLoop c β ms (max s cm) (max α0 (max s cm)) :=
              lt_of_le_of_lt h2 hmid
            have hr3 : AlphaBetaPlayer.maxLoop c β ms (max s cm) (max α0 (max s cm)) =
                max cm (max s (ms.foldl (fun a m => max a (t m)) ⊥)) := by
              rw [hr2, max_comm s cm, max_assoc]
            have hsM : AlphaBetaPlayer.maxLoop c β ms (max s cm) (max α0 (max s cm)) =
                max s (ms.foldl (fun a m => max a (t m)) ⊥) :=
              eq_of_eq_max_of_lt hr3 hcmlt
            have htmlt : t m <
                AlphaBetaPlayer.maxLoop c β ms (max s cm) (max α0 (max s cm)) :=
              lt_of_le_of_lt (le_trans htm h2) hmid
            rw [max_comm s (t m), max_assoc, hsM]
            symm
            exact max_eq_right (le_of_lt (htmlt.trans_eq hsM))
          · -- cm ≤ s: the entry accumulators agree
            have hiniteq : max s (t m) ≤ s := max_le le_rfl (le_trans htm h2)
            have hinit2 : max s (t m) = s := le_antisymm hiniteq (le_max_left _ _)
            have hcm2 : max s cm = s := max_eq_left h2
            rw [hinit2]
            calc AlphaBetaPlayer.maxLoop c β ms (max s cm) (max α0 (max s cm))
                = ms.foldl (fun a m => max a (t m)) (max s cm) := hr
              _ = ms.foldl (fun a m => max a (t m)) s := by rw [hcm2]
      · -- the child value is exact inside the window
        push_neg at h1
        have hcmt : cm = t m := hcc h1 (lt_of_le_of_lt (le_max_right s cm) hscmβ)
        rw [← hcmt]
        exact ⟨ihA, ihB, ihC⟩

/-- The minimizing pruning loop preserves the fail-soft window property;
dual of `AlphaBetaPlayer.maxLoop_spec`. -/
theorem AlphaBetaPlayer.minLoop_spec (c : Move → V → V) (t : Move → V) (α : V)
    (hc : ∀ m b, α < b →
      (c m b ≤ α → t m ≤ c m b) ∧ (b ≤ c m b → c m b ≤ t m) ∧
      (α < c m b → c m b < b → c m b = t m)) :
    ∀ (ms : List Move) (s β0 : V), α < s → α < β0 →
      (AlphaBetaPlayer.minLoop c α ms s (min β0 s) ≤ α →
        ms.foldl (fun a m => min a (t m)) s ≤
          AlphaBetaPlayer.minLoop c α ms s (min β0 s)) ∧
      (β0 ≤ AlphaBetaPlayer.minLoop c α ms s (min β0 s) →
        AlphaBetaPlayer.minLoop c α ms s (min β0 s) ≤
          ms.foldl (fun a m => min a (t m)) s) ∧
      (α < AlphaBetaPlayer.minLoop c α ms s (min β0 s) →
        AlphaBetaPlayer.minLoop c α ms s (min β0 s) < β0 →
        AlphaBetaPlayer.minLoop c α ms s (min β0 s) =
          ms.foldl (fun a m => min a (t m)) s) := by
  intro ms
  induction ms with
  | nil =>
    intro s β0 hs hβ
    exact ⟨fun _ => le_rfl, fun _ => le_rfl, fun _ _ => rfl⟩
  | cons m ms ih =>
    intro s β0 hs hβ
    have hb0α : α < min β0 s := lt_min hβ hs
    obtain ⟨hca, hcb, hcc⟩ := hc m (min β0 s) hb0α
    have hstep : AlphaBetaPlayer.minLoop c α (m :: ms) s (min β0 s) =
        if min s (c m (min β0 s)) ≤ α then min s (c m (min β0 s))
        else AlphaBetaPlayer.minLoop c α ms (min s (c m (min β0 s)))
          (min (min β0 s) (min s (c m (min β0 s)))) := by
      rw [AlphaBetaPlayer.minLoop]
    have htv : (m :: ms).foldl (fun a m => min a (t m)) s =
        ms.foldl (fun a m => min a (t m)) (min s (t m)) := rfl
    set cm := c m (min β0 s) with hcmdef
    by_cases hcut : min s cm ≤ α
    · -- break: the running score dropped to alpha
      rw [hstep, if_pos hcut, htv]
      have hmineq : min s cm = cm := by
        rcases le_total cm s with h1 | h1
        · exact min_eq_right h1
        · rw [min_eq_left h1] at hcut
          exact absurd hcut (not_le.mpr hs)
      refine ⟨?_, ?_, ?_⟩
      · intro _
        have h1 : t m ≤ cm := hca (hmineq ▸ hcut)
        calc ms.foldl (fun a m => min a (t m)) (min s (t m))
            ≤ min s (t m) := foldl_min_le _ _ _
          _ ≤ min s cm := min_le_min le_rfl h1
      · intro hhigh
        exact absurd (le_trans hhigh hcut) (not_le.mpr hβ)
      · intro hmid _
        exact absurd hcut (not_le.mpr hmid)
    · -- continue scanning the remaining moves
      have hscmα : α < min s cm := not_le.mp hcut
      have harg : min (min β0 s) (min s cm) = min β0 (min s cm) := by
        rw [min_assoc, ← min_assoc s s cm, min_self]
      rw [hstep, if_neg hcut, htv, harg]
      obtain ⟨ihA, ihB, ihC⟩ := ih (min s cm) β0 hscmα hβ
      by_cases h1 : min β0 s ≤ cm
      · -- the child failed high: its exact value is at least cm
        have hcmtm : cm ≤ t m := hcb h1
        have hinit : min s cm ≤ min s (t m) := min_le_min le_rfl hcmtm
        have htvge : ms.foldl (fun a m => min a (t m)) (min s cm) ≤
            ms.foldl (fun a m => min a (t m)) (min s (t m)) := foldl_min_mono _ _ hinit
        refine ⟨?_, ?_, ?_⟩
        · intro hlow
          have hr := ihA hlow
          rw [foldl_min_split] at hr
          have hM : ms.foldl (fun a m => min a (t m)) ⊤ ≤
              AlphaBetaPlayer.minLoop c α ms (min s cm) (min β0 (min s cm)) :=
            min_le_of_le_of_lt hr (lt_of_le_of_lt hlow hscmα)
          rw [foldl_min_split]
          exact le_trans (min_le_right _ _) hM
        · intro hhigh
          exact le_trans (ihB hhigh) htvge
        · intro hmid hhigh
          have hr := ihC hmid hhigh
          rcases min_le_iff.mp h1 with h2 | h2
          · -- beta0 ≤ cm < nothing relevant: the child contribution is dominated
            rw [foldl_min_split] at hr ⊢
            have hcmgt : AlphaBetaPlayer.minLoop c α ms (min s cm) (min β0 (min s cm)) < cm :=
              lt_of_lt_of_le hhigh h2
            have hr3 : AlphaBetaPlayer.minLoop c α ms (min s cm) (min β0 (min s cm)) =
                min cm (min s (ms.foldl (fun a m => min a (t m)) ⊤)) := by
              rw [hr, min_comm s cm, min_assoc]
            have hsM : AlphaBetaPlayer.minLoop c α ms (min s cm) (min β0 (min s cm)) =
                min s (ms.foldl (fun a m => min a (t m)) ⊤) :=
              eq_of_eq_min_of_lt hr3 hcmgt
            have htmgt : AlphaBetaPlayer.minLoop c α ms (min s cm) (min β0 (min s cm)) < t m :=
              lt_of_lt_of_le (lt_of_lt_of_le hhigh h2) hcmtm
            rw [min_comm s (t m), min_assoc, hsM]
            symm
            exact min_eq_right (le_of_lt (lt_of_eq_of_lt hsM.symm htmgt))
          · -- s ≤ cm: the entry accumulators agree
            have hinit2 : min s (t m) = s := min_eq_left (le_trans h2 hcmtm)
            have hcm2 : min s cm = s := min_eq_left h2
            rw [hinit2]
            calc AlphaBetaPlayer.minLoop c α ms (min s cm) (min β0 (min s cm))
                = ms.foldl (fun a m => min a (t m)) (min s cm) := hr
              _ = ms.foldl (fun a m => min a (t m)) s := by rw [hcm2]
      · -- the child value is exact inside the window
        push_neg at h1
        have hcmt : cm = t m :=
          hcc (lt_of_lt_of_le hscmα (min_le_right s cm)) h1
        rw [← hcmt]
        exact ⟨ihA, ihB, ihC⟩

/-- The two players are each other's opponents. -/
theorem Player.other_other : ∀ p : Player, p.other.other = p := by
  intro p
  cases p <;> rfl

/-- The fail-soft window property for whole alpha-beta value searches on
an alternating board whose active player matches the layer: a value at or
below `alpha` upper-bounds the minimax value, a value at or above `beta`
lower-bounds it, and a value strictly inside the window equals it. -/
theorem AlphaBetaPlayer.value_spec (sc : Board → ℚ) (p : Player) :
    ∀ g : Board, g.flips →
      ∀ (isMax : Bool) (d : Int) (α β : V),
        g.active = (if isMax then p else p.other) → α < β →
        (AlphaBetaPlayer.value sc p isMax g d α β ≤ α →
          MinimaxPlayer.value sc isMax g d ≤ AlphaBetaPlayer.value sc p isMax g d α β) ∧
        (β ≤ AlphaBetaPlayer.value sc p isMax g d α β →
          AlphaBetaPlayer.value sc p isMax g d α β ≤ MinimaxPlayer.value sc isMax g d) ∧
        (α < AlphaBetaPlayer.value sc p isMax g d α β →
          AlphaBetaPlayer.value sc p isMax g d α β < β →
          AlphaBetaPlayer.value sc p isMax g d α β = MinimaxPlayer.value sc isMax g d) := by
  intro g
  induction g with
  | stuck i =>
    intro _ isMax d α β _ _
    have hab : AlphaBetaPlayer.value sc p isMax (.stuck i) d α β = toV (sc (.stuck i)) := by
      cases isMax <;> rfl
    have hmm : MinimaxPlayer.value sc isMax (.stuck i) d = toV (sc (.stuck i)) := by
      cases isMax <;> rfl
    rw [hab, hmm]
    exact ⟨fun _ => le_rfl, fun _ => le_rfl, fun _ _ => rfl⟩
  | mk i lm f ih =>
    intro hflips isMax d α β hact hαβ
    obtain ⟨hfl1, hfl2⟩ := hflips
    by_cases hterm : d = 0 ∨ lm i.active = []
    · have hab : AlphaBetaPlayer.value sc p isMax (.mk i lm f) d α β =
          toV (sc (.mk i lm f)) := by
        cases isMax <;> rw [AlphaBetaPlayer.value, if_pos hterm]
      have hmm : MinimaxPlayer.value sc isMax (.mk i lm f) d =
          toV (sc (.mk i lm f)) := by
        cases isMax <;> rw [MinimaxPlayer.value, if_pos hterm]
      rw [hab, hmm]
      exact ⟨fun _ => le_rfl, fun _ => le_rfl, fun _ _ => rfl⟩
    · cases isMax with
      | true =>
        have hactp : i.active = p := by
          simpa [Board.active, Board.info] using hact
        have hchild : ∀ m a, a < β →
            (AlphaBetaPlayer.value sc p false (f m) (d - 1) a β ≤ a →
              MinimaxPlayer.value sc false (f m) (d - 1) ≤
                AlphaBetaPlayer.value sc p false (f m) (d - 1) a β) ∧
            (β ≤ AlphaBetaPlayer.value sc p false (f m) (d - 1) a β →
              AlphaBetaPlayer.value sc p false (f m) (d - 1) a β ≤
                MinimaxPlayer.value sc false (f m) (d - 1)) ∧
            (a < AlphaBetaPlayer.value sc p false (f m) (d - 1) a β →
              AlphaBetaPlayer.value sc p false (f m) (d - 1) a β < β →
              AlphaBetaPlayer.value sc p false (f m) (d - 1) a β =
                MinimaxPlayer.value sc false (f m) (d - 1)) := by
          intro m a ha
          refine ih m (hfl2 m) false (d - 1) a β ?_ ha
          rw [hfl1 m, hactp]
          simp
        rw [AlphaBetaPlayer.value_mk_max sc p i lm f d α β hterm,
          MinimaxPlayer.value_node_max sc i lm f d hterm, hactp]
        have hmb : max α (⊥ : V) = α := max_eq_left bot_le
        have hmain := AlphaBetaPlayer.maxLoop_spec
          (fun m a => AlphaBetaPlayer.value sc p false (f m) (d - 1) a β)
          (fun m => MinimaxPlayer.value sc false (f m) (d - 1)) β hchild
          (lm p) ⊥ α (lt_of_le_of_lt bot_le hαβ) hαβ
        rw [hmb] at hmain
        exact hmain
      | false =>
        have hactp : i.active = p.other := by
          simpa [Board.active, Board.info] using hact
        have hchild : ∀ m b, α < b →
            (AlphaBetaPlayer.value sc p true (f m) (d - 1) α b ≤ α →
              MinimaxPlayer.value sc true (f m) (d - 1) ≤
                AlphaBetaPlayer.value sc p true (f m) (d - 1) α b) ∧
            (b ≤ AlphaBetaPlayer.value sc p true (f m) (d - 1) α b →
              AlphaBetaPlayer.value sc p true (f m) (d - 1) α b ≤
                MinimaxPlayer.value sc true (f m) (d - 1)) ∧
            (α < AlphaBetaPlayer.value sc p true (f m) (d - 1) α b →
              AlphaBetaPlayer.value sc p true (f m) (d - 1) α b < b →
              AlphaBetaPlayer.value sc p true (f m) (d - 1) α b =
                MinimaxPlayer.value sc true (f m) (d - 1)) := by
          intro m b hb
          refine ih m (hfl2 m) true (d - 1) α b ?_ hb
          rw [hfl1 m, hactp, Player.other_other]
          simp
        rw [AlphaBetaPlayer.value_mk_min sc p i lm f d α β hterm,
          MinimaxPlayer.value_node_min sc i lm f d hterm]
        have hmt : min β (⊤ : V) = β := min_eq_left le_top
        have hmain := AlphaBetaPlayer.minLoop_spec
          (fun m b => AlphaBetaPlayer.value sc p true (f m) (d - 1) α b)
          (fun m => MinimaxPlayer.value sc true (f m) (d - 1)) α hchild
          (lm i.active) ⊤ β (lt_of_lt_of_le hαβ le_top) hαβ
        rw [hmt] at hmain
        exact hmain

/-- The minimax root loop: its running best score is the running maximum
of the child values, its selected move (when any) achieves that maximum,
and it stays empty-handed only when no child beat the entry score. -/
theorem MinimaxPlayer.root_spec (t : Move → V) :
    ∀ (ms : List Move) (s : V) (b : Option Move),
      (∀ mb, b = some mb → t mb = s) →
      (ms.foldl (fun best m => if best.1 < t m then (t m, some m) else best) (s, b)).1 =
        ms.foldl (fun a m => max a (t m)) s ∧
      (∀ mb,
        (ms.foldl (fun best m => if best.1 < t m then (t m, some m) else best) (s, b)).2 =
          some mb →
        t mb = ms.foldl (fun a m => max a (t m)) s) ∧
      ((ms.foldl (fun best m => if best.1 < t m then (t m, some m) else best) (s, b)).2 =
          none →
        b = none ∧ ms.foldl (fun a m => max a (t m)) s = s) := by
  intro ms
  induction ms with
  | nil =>
    intro s b hb
    exact ⟨rfl, fun mb h => hb mb h, fun h => ⟨h, rfl⟩⟩
  | cons m ms ih =>
    intro s b hb
    have hstep : (m :: ms).foldl
        (fun best m => if best.1 < t m then (t m, some m) else best) (s, b) =
        ms.foldl (fun best m => if best.1 < t m then (t m, some m) else best)
          (if s < t m then (t m, some m) else (s, b)) := rfl
    have hT : (m :: ms).foldl (fun a m => max a (t m)) s =
        ms.foldl (fun a m => max a (t m)) (max s (t m)) := rfl
    rw [hstep, hT]
    by_cases hlt : s < t m
    · rw [if_pos hlt, max_eq_right (le_of_lt hlt)]
      obtain ⟨ih1, ih2, ih3⟩ := ih (t m) (some m)
        (fun mb h => by rw [Option.some_inj.mp h])
      refine ⟨ih1, ih2, fun h => ?_⟩
      obtain ⟨hc, _⟩ := ih3 h
      exact Option.noConfusion hc
    · rw [if_neg hlt, max_eq_left (le_of_not_lt hlt)]
      exact ih s b hb

/-- The alpha-beta root loop at the full window: starting from the root's
`best_score = -inf`, `alpha = -inf` state (or any coherent later state),
it either selects a move achieving the running maximum of the true child
values, or leaves the state untouched because no child beat the entry
score. -/
theorem AlphaBetaPlayer.rootLoop_spec (c : Move → V → V) (t : Move → V)
    (hc : ∀ m a, a < ⊤ →
      (c m a ≤ a → t m ≤ c m a) ∧ ((⊤ : V) ≤ c m a → c m a ≤ t m) ∧
      (a < c m a → c m a < ⊤ → c m a = t m))
    (ht : ∀ m, ∃ q, t m = toV q) :
    ∀ (ms : List Move) (s : V) (b : Option Move),
      (s = ⊥ ∧ b = none) ∨ ((∃ q, s = toV q) ∧ ∃ mb, b = some mb ∧ t mb = s) →
      (∃ mb, (AlphaBetaPlayer.rootLoop c ⊤ ms s b s).2 = some mb ∧
        t mb = ms.foldl (fun a m => max a (t m)) s) ∨
      (AlphaBetaPlayer.rootLoop c ⊤ ms s b s = (s, b) ∧
        ms.foldl (fun a m => max a (t m)) s = s) := by
  intro ms
  induction ms with
  | nil =>
    intro s b _
    exact Or.inr ⟨rfl, rfl⟩
  | cons m ms ih =>
    intro s b hpre
    have hsT : s < ⊤ := by
      rcases hpre with ⟨rfl, _⟩ | ⟨⟨q, rfl⟩, _⟩
      · exact lt_of_lt_of_le (bot_lt_toV 0) le_top
      · exact toV_lt_top q
    obtain ⟨hca, hcb, hcc⟩ := hc m s hsT
    have hcmtop : c m s < ⊤ := by
      rcases lt_or_le (c m s) ⊤ with h | h
      · exact h
      · obtain ⟨q, hq⟩ := ht m
        have h2 : (⊤ : V) ≤ t m := le_trans h (hcb h)
        rw [hq] at h2
        exact absurd h2 (not_le.mpr (toV_lt_top q))
    have hstep : AlphaBetaPlayer.rootLoop c ⊤ (m :: ms) s b s =
        if (⊤ : V) ≤ (if s < c m s then c m s else s) then
          ((if s < c m s then c m s else s), (if s < c m s then some m else b))
        else
          AlphaBetaPlayer.rootLoop c ⊤ ms (if s < c m s then c m s else s)
            (if s < c m s then some m else b)
            (max s (if s < c m s then c m s else s)) := by
      rw [AlphaBetaPlayer.rootLoop]
    have hs1top : (if s < c m s then c m s else s) < ⊤ := by
      split
      · exact hcmtop
      · exact hsT
    rw [hstep, if_neg (not_le.mpr hs1top)]
    have hT : (m :: ms).foldl (fun a m => max a (t m)) s =
        ms.foldl (fun a m => max a (t m)) (max s (t m)) := rfl
    rw [hT]
    by_cases hup : s < c m s
    · -- the child beat the running best: exact value, new best move
      have hcmt : c m s = t m := hcc hup hcmtop
      rw [if_pos hup, if_pos hup]
      rw [max_eq_right (le_of_lt hup)]
      have hTm : max s (t m) = c m s := by
        rw [← hcmt]
        exact max_eq_right (le_of_lt hup)
      rw [hTm]
      have hpre2 : (c m s = ⊥ ∧ some m = none) ∨
          ((∃ q, c m s = toV q) ∧ ∃ mb, some m = some mb ∧ t mb = c m s) := by
        refine Or.inr ⟨?_, m, rfl, hcmt.symm⟩
        obtain ⟨q, hq⟩ := ht m
        exact ⟨q, by rw [hcmt, hq]⟩
      rcases ih (c m s) (some m) hpre2 with ⟨mb, hmb, hmbv⟩ | ⟨hout, hTv⟩
      · exact Or.inl ⟨mb, hmb, hmbv⟩
      · refine Or.inl ⟨m, ?_, ?_⟩
        · rw [hout]
        · rw [hTv, ← hcmt]
    · -- the child did not beat the running best
      have hcmle : c m s ≤ s := le_of_not_lt hup
      have hsnotbot : ∃ q, s = toV q := by
        rcases hpre with ⟨hsb, _⟩ | ⟨hq2, _⟩
        · exfalso
          have hcmbot : c m s = ⊥ := le_bot_iff.mp (le_trans hcmle (le_of_eq hsb))
          have htm2 : t m ≤ c m s := hca hcmle
          obtain ⟨q, hq⟩ := ht m
          rw [hq, hcmbot] at htm2
          exact absurd htm2 (not_le.mpr (bot_lt_toV q))
        · exact hq2
      have htm : t m ≤ s := le_trans (hca hcmle) hcmle
      have hTm : max s (t m) = s := max_eq_left htm
      rw [if_neg hup, if_neg hup, max_self, hTm]
      exact ih s b hpre

/-- C3: with a time budget that never triggers the cancellation check, on
an alternating board with the agent to move, the move selected by
`AlphaBetaPlayer.alphabeta` at the full window achieves exactly the same
heuristic-backed minimax value as the move selected by
`MinimaxPlayer.minimax` (both agents also agree on returning no move).
`sc` is the injected heuristic evaluated from the agent's own
perspective, as both searches call it. -/
theorem claim_C3 (sc : Board → ℚ) (p : Player) (g : Board) (d : Int)
    (hflips : g.flips) (hact : g.active = p) :
    (MinimaxPlayer.minimax sc g d = none ↔
      AlphaBetaPlayer.alphabeta sc p g d ⊥ ⊤ = none) ∧
    (∀ m1 m2, MinimaxPlayer.minimax sc g d = some m1 →
      AlphaBetaPlayer.alphabeta sc p g d ⊥ ⊤ = some m2 →
      MinimaxPlayer.value sc false (g.forecast m1) (d - 1) =
        MinimaxPlayer.value sc false (g.forecast m2) (d - 1)) := by
  cases g with
  | stuck i =>
    refine ⟨Iff.rfl, fun m1 m2 h1 _ => ?_⟩
    exact Option.noConfusion h1
  | mk i lm f =>
    obtain ⟨hfl1, hfl2⟩ := hflips
    have hactp : i.active = p := hact
    have hmm_def : MinimaxPlayer.minimax sc (.mk i lm f) d =
        ((lm i.active).foldl
          (fun best m =>
            if best.1 < MinimaxPlayer.value sc false (f m) (d - 1) then
              (MinimaxPlayer.value sc false (f m) (d - 1), some m)
            else best) ((⊥ : V), (none : Option Move))).2 := rfl
    have hab_def : AlphaBetaPlayer.alphabeta sc p (.mk i lm f) d ⊥ ⊤ =
        (AlphaBetaPlayer.rootLoop
          (fun m a => AlphaBetaPlayer.value sc p false (f m) (d - 1) a ⊤)
          ⊤ (lm i.active) ⊥ none ⊥).2 := rfl
    have hc : ∀ m a, a < ⊤ →
        (AlphaBetaPlayer.value sc p false (f m) (d - 1) a ⊤ ≤ a →
          MinimaxPlayer.value sc false (f m) (d - 1) ≤
            AlphaBetaPlayer.value sc p false (f m) (d - 1) a ⊤) ∧
        ((⊤ : V) ≤ AlphaBetaPlayer.value sc p false (f m) (d - 1) a ⊤ →
          AlphaBetaPlayer.value sc p false (f m) (d - 1) a ⊤ ≤
            MinimaxPlayer.value sc false (f m) (d - 1)) ∧
        (a < AlphaBetaPlayer.value sc p false (f m) (d - 1) a ⊤ →
          AlphaBetaPlayer.value sc p false (f m) (d - 1) a ⊤ < ⊤ →
          AlphaBetaPlayer.value sc p false (f m) (d - 1) a ⊤ =
            MinimaxPlayer.value sc false (f m) (d - 1)) := by
      intro m a ha
      refine AlphaBetaPlayer.value_spec sc p (f m) (hfl2 m) false (d - 1) a ⊤ ?_ ha
      rw [hfl1 m, hactp]
      simp
    have ht : ∀ m, ∃ q, MinimaxPlayer.value sc false (f m) (d - 1) = toV q :=
      fun m => MinimaxPlayer.value_finite sc (f m) false (d - 1)
    obtain ⟨hmm1, hmm2, hmm3⟩ := MinimaxPlayer.root_spec
      (fun m => MinimaxPlayer.value sc false (f m) (d - 1)) (lm i.active) ⊥ none
      (fun mb h => Option.noConfusion h)
    have hABspec := AlphaBetaPlayer.rootLoop_spec
      (fun m a => AlphaBetaPlayer.value sc p false (f m) (d - 1) a ⊤)
      (fun m => MinimaxPlayer.value sc false (f m) (d - 1)) hc ht
      (lm i.active) ⊥ none (Or.inl ⟨rfl, rfl⟩)
    rw [hmm_def, hab_def]
    constructor
    · constructor
      · intro hmnone
        obtain ⟨_, hTbot⟩ := hmm3 hmnone
        rcases hABspec with ⟨mb, _, hmbv⟩ | ⟨hout, _⟩
        · have hmbv2 : MinimaxPlayer.value sc false (f mb) (d - 1) =
              (lm i.active).foldl
                (fun a m => max a (MinimaxPlayer.value sc false (f m) (d - 1))) ⊥ := hmbv
          obtain ⟨q, hq⟩ := ht mb
          rw [hq, hTbot] at hmbv2
          exact absurd hmbv2 (ne_of_gt (bot_lt_toV q))
        · rw [hout]
      · intro habnone
        rcases hABspec with ⟨mb, hmb, _⟩ | ⟨hout, hTbot⟩
        · rw [habnone] at hmb
          exact Option.noConfusion hmb
        · cases hmm : ((lm i.active).foldl
            (fun best m =>
              if best.1 < MinimaxPlayer.value sc false (f m) (d - 1) then
                (MinimaxPlayer.value sc false (f m) (d - 1), some m)
              else best) ((⊥ : V), (none : Option Move))).2 with
          | none => rfl
          | some mb =>
            have hv := hmm2 mb hmm
            obtain ⟨q, hq⟩ := ht mb
            rw [hq, hTbot] at hv
            exact absurd hv (ne_of_gt (bot_lt_toV q))
    · intro m1 m2 h1 h2
      have hv1 := hmm2 m1 h1
      rcases hABspec with ⟨mb, hmb, hmbv⟩ | ⟨hout, _⟩
      · have hmbv2 : MinimaxPlayer.value sc false (f mb) (d - 1) =
            (lm i.active).foldl
              (fun a m => max a (MinimaxPlayer.value sc false (f m) (d - 1))) ⊥ := hmbv
        rw [h2] at hmb
        have hmb2 : m2 = mb := Option.some_inj.mp hmb
        show MinimaxPlayer.value sc false (f m1) (d - 1) =
          MinimaxPlayer.value sc false (f m2) (d - 1)
        rw [hv1, hmb2, hmbv2]
      · rw [hout] at h2
        exact Option.noConfusion h2

/-- The minimizing mid-layer boards of the concrete tree alternate. -/
theorem midC3_flips (ms : List Move) : (midC3 ms).flips :=
  ⟨fun _ => rfl, fun _ => trivial⟩

/-- The concrete alternating tree alternates. -/
theorem topC3_flips : topC3.flips := by
  refine ⟨fun m => ?_, fun m => ?_⟩
  · show Board.active
      (if m = ((0 : Int), (1 : Int)) then midC3 [((4 : Int), (0 : Int)), (0, 2)]
       else if m = ((2 : Int), (3 : Int)) then midC3 [((1 : Int), (0 : Int))]
       else midC3 [((3 : Int), (3 : Int)), (2, 2), (0, 0)]) = infoA.active.other
    split_ifs <;> rfl
  · show Board.flips
      (if m = ((0 : Int), (1 : Int)) then midC3 [((4 : Int), (0 : Int)), (0, 2)]
       else if m = ((2 : Int), (3 : Int)) then midC3 [((1 : Int), (0 : Int))]
       else midC3 [((3 : Int), (3 : Int)), (2, 2), (0, 0)])
    split_ifs <;> exact midC3_flips _

/-- C3 witness: the equivalence at the concrete alternating tree, depth
3, with the mobility-differential heuristic. -/
theorem claim_C3_witness :
    (MinimaxPlayer.minimax (fun g => improved_om_score g .one) topC3 3 = none ↔
      AlphaBetaPlayer.alphabeta (fun g => improved_om_score g .one) .one topC3 3 ⊥ ⊤ = none) ∧
    (∀ m1 m2,
      MinimaxPlayer.minimax (fun g => improved_om_score g .one) topC3 3 = some m1 →
      AlphaBetaPlayer.alphabeta (fun g => improved_om_score g .one) .one topC3 3 ⊥ ⊤ = some m2 →
      MinimaxPlayer.value (fun g => improved_om_score g .one) false (topC3.forecast m1) (3 - 1) =
        MinimaxPlayer.value (fun g => improved_om_score g .one) false (topC3.forecast m2) (3 - 1)) :=
  claim_C3 (fun g => improved_om_score g .one) .one topC3 3 topC3_flips rfl

end StaleMate
